import Mathlib

/-!
# A verification development for `queue.c`

The string queue of `queue.c` is a singly linked list of `list_ele_t` cells
owned by a `queue_t` handle.  The embedding keeps the pointer structure:

* a pointer to a list element is an `Option Nat` (`none` is `NULL`);
* the heap of list elements is a function from addresses to cells, together
  with the set of addresses that are currently allocated (`live`);
* a C string is the list of bytes stored at its address, terminator included;
* an `int` (`size`, `value_size`) is an integer reduced to 32 bits in two's
  complement after every assignment, `size_t` is a natural number reduced
  modulo `2 ^ 64`;
* the outcome of every `malloc` is an input of the operation that calls it;
* loops and the recursion of the merge sort are driven by a fuel counter, and
  return `none` when the counter runs out.
-/

namespace Lab0

/-! ## Data model -/

/-- Linked list element: `char *value; struct ELE *next;`.  The string owned by
the element is kept in the cell (bytes followed by the terminator). -/
structure list_ele_t where
  value : List Nat
  next : Option Nat

/-- Queue structure: `list_ele_t *head; list_ele_t *tail; int size;`. -/
structure queue_t where
  head : Option Nat
  tail : Option Nat
  size : Int

/-- Memory seen by the queue operations: contents of the list element at every
address, which addresses are allocated, and the queue object the handle `q`
points to (`none` when `q` is `NULL`). -/
structure State where
  mem : Nat → list_ele_t
  live : Nat → Bool
  q : Option queue_t

/-- Store `p->next = v`. -/
def set_next (m : Nat → list_ele_t) (p : Nat) (v : Option Nat) : Nat → list_ele_t :=
  fun x => if x = p then { value := (m x).value, next := v } else m x

/-- Store `p->value = v`. -/
def set_value (m : Nat → list_ele_t) (p : Nat) (v : List Nat) : Nat → list_ele_t :=
  fun x => if x = p then { value := v, next := (m x).next } else m x

/-- Mark the block at `p` as allocated (`b = true`) or released (`b = false`). -/
def set_live (l : Nat → Bool) (p : Nat) (b : Bool) : Nat → Bool :=
  fun x => if x = p then b else l x

/-! ## C strings -/

/-- Number of bytes before the first terminator. -/
def strlen : List Nat → Nat
  | [] => 0
  | c :: cs => if c = 0 then 0 else strlen cs + 1

/-- The call `memset(dst, c, n)`: the first `n` bytes at `dst` become `c`. -/
def memset (dst : List Nat) (c n : Nat) : List Nat :=
  List.replicate n c ++ dst.drop n

/-- The call `strncpy(dst, src, n)`: exactly `n` bytes are written at `dst`, the
bytes of `src` up to its terminator and zero bytes after them. -/
def strncpy (dst src : List Nat) (n : Nat) : List Nat :=
  src.take (min (strlen src) n) ++ List.replicate (n - strlen src) 0 ++ dst.drop n

/-- Case folding of one byte in the C locale. -/
def tolower (c : Nat) : Nat :=
  if 65 ≤ c ∧ c ≤ 90 then c + 32 else c

/-- The call `strcasecmp(a, b)`: difference of the first pair of bytes that
differ after case folding, `0` when both strings end together.  The end of the
list reads as a terminator. -/
def strcasecmp : List Nat → List Nat → Int
  | [], [] => 0
  | [], b :: _ => 0 - (tolower b : Int)
  | a :: _, [] => (tolower a : Int) - 0
  | a :: as, b :: bs =>
    if tolower a = tolower b then
      if a = 0 then 0 else strcasecmp as bs
    else (tolower a : Int) - (tolower b : Int)

/-- Bytes of a string literal followed by the terminator. -/
def cstr (s : String) : List Nat :=
  s.toList.map Char.toNat ++ [0]

/-- Width of `size_t` in bits. -/
def SIZE_WIDTH : Nat := 64

/-- Largest value of an `int`. -/
def INT_MAX : Int := 2147483647

/-- Value of an `int` that is assigned the mathematical result `x`: `x` reduced
to 32 bits in two's complement (`INT_MAX + 1` becomes `-2147483648`, a length
of `2 ^ 32 + 1` becomes `1`). -/
def wrap_int (x : Int) : Int :=
  (x + 2147483648) % 4294967296 - 2147483648

/-- Conversion of an `int` to `size_t`: the value modulo `2 ^ 64`. -/
def int_to_size (v : Int) : Nat :=
  (v % 18446744073709551616).toNat

/-- The statements `strncpy(value_new, s, value_size); value_new[value_size] = 0;`
of the insert operations, on the block `blk` that `malloc` returned.  The result
is the memory at `value_new`.  A negative `value_size` indexes before the block,
which leaves the bytes of the block as `strncpy` wrote them. -/
def copy_string (blk s : List Nat) (value_size : Int) : List Nat :=
  if 0 ≤ value_size then
    (strncpy blk s (int_to_size value_size)).set value_size.toNat 0
  else
    strncpy blk s (int_to_size value_size)

/-! ## Queue operations -/

/-- Function `q_new`: `alloc` tells whether `malloc(sizeof(queue_t))` succeeded. -/
def q_new (mem : Nat → list_ele_t) (live : Nat → Bool) (alloc : Bool) : State :=
  if alloc then
    { mem := mem, live := live, q := some { head := none, tail := none, size := 0 } }
  else
    { mem := mem, live := live, q := none }

/-- Function `q_insert_head`.  `newh` is the result of `malloc(sizeof(list_ele_t))`
and `value_new` the block returned by `malloc(value_size + 1)` with the bytes
it holds on return; `none` is a failed allocation. -/
def q_insert_head (st : State) (s : Option (List Nat)) (newh : Option Nat)
    (value_new : Option (List Nat)) : State × Bool :=
  match st.q, s with
  | some q, some s =>
    match newh with
    | none => (st, false)
    | some newh =>
      let value_size := wrap_int (strlen s)
      match value_new with
      | none => (st, false)
      | some blk =>
        let value_new := copy_string blk s value_size
        let mem1 := set_value st.mem newh value_new
        match q.head with
        | none =>
          ({ mem := set_next mem1 newh none,
             live := set_live st.live newh true,
             q := some { head := some newh, tail := some newh,
                         size := wrap_int (q.size + 1) } }, true)
        | some h =>
          ({ mem := set_next mem1 newh (some h),
             live := set_live st.live newh true,
             q := some { head := some newh, tail := q.tail,
                         size := wrap_int (q.size + 1) } }, true)
  | _, _ => (st, false)

/-- Function `q_insert_tail`, with the allocation outcomes as in `q_insert_head`. -/
def q_insert_tail (st : State) (s : Option (List Nat)) (newt : Option Nat)
    (value_new : Option (List Nat)) : State × Bool :=
  match st.q, s with
  | some q, some s =>
    match newt with
    | none => (st, false)
    | some newt =>
      let value_size := wrap_int (strlen s)
      match value_new with
      | none => (st, false)
      | some blk =>
        let value_new := copy_string blk s value_size
        let mem1 := set_next (set_value st.mem newt value_new) newt none
        match q.tail with
        | none =>
          ({ mem := mem1,
             live := set_live st.live newt true,
             q := some { head := some newt, tail := some newt,
                         size := wrap_int (q.size + 1) } }, true)
        | some t =>
          ({ mem := set_next mem1 t (some newt),
             live := set_live st.live newt true,
             q := some { head := q.head, tail := some newt,
                         size := wrap_int (q.size + 1) } }, true)
  | _, _ => (st, false)

/-- Function `q_remove_head`.  `sp` is the memory at the caller's buffer (`none`
when `sp` is `NULL`); the second component of the result is that memory after
the call, the third the value returned, `none` when the call does not return.
With a buffer and a bound `bufsize - 1` that is not below `bufsize` (this is
`bufsize = 0`, where the bound wraps to `SIZE_MAX`) `strncpy` stores past the
end of the buffer through the whole address space: the call does not return
and the statements after the copy are not executed. -/
def q_remove_head (st : State) (sp : Option (List Nat)) (bufsize : Nat) :
    State × Option (List Nat) × Option Bool :=
  match st.q with
  | none => (st, sp, some false)
  | some q =>
    match q.head with
    | none => (st, sp, some false)
    | some tmph =>
      let bound := (bufsize + 2 ^ SIZE_WIDTH - 1) % 2 ^ SIZE_WIDTH
      let sp1 := sp.map fun buf =>
        strncpy (memset buf 0 bufsize) (st.mem tmph).value bound
      if sp.isSome ∧ bufsize ≤ bound then
        (st, sp1, none)
      else
        ({ mem := st.mem,
           live := set_live st.live tmph false,
           q := some { head := (st.mem tmph).next, tail := q.tail,
                       size := wrap_int (q.size - 1) } },
         sp1, some true)

/-- Function `q_size`. -/
def q_size (st : State) : Int :=
  match st.q with
  | none => 0
  | some q => q.size

/-- Loop of `q_reverse`: `while (c != NULL) { n = c->next; c->next = p; p = c; c = n; }`.
The result is the heap and the final `p`. -/
def q_reverse_loop : Nat → (Nat → list_ele_t) → Nat → Option Nat →
    Option ((Nat → list_ele_t) × Nat)
  | _, m, p, none => some (m, p)
  | 0, _, _, some _ => none
  | fuel + 1, m, p, some c =>
    let n := (m c).next
    q_reverse_loop fuel (set_next m c (some p)) c n

/-- Function `q_reverse`. -/
def q_reverse (fuel : Nat) (st : State) : Option State :=
  match st.q with
  | none => some st
  | some q =>
    match q.head with
    | none => some st
    | some p =>
      match q_reverse_loop fuel st.mem p (st.mem p).next with
      | none => none
      | some (m, p1) =>
        some { mem := set_next m p none,
               live := st.live,
               q := some { head := some p1, tail := some p, size := q.size } }

/-- Where the cursor `head` of `q_merge` points: at the local `tmp_head` or at a
list element of the heap. -/
inductive Loc where
  | tmp_head : Loc
  | ele : Nat → Loc

/-- Store `head->next = v` inside `q_merge`.  The second component is the field
`tmp_head.next`, `none` as long as it has not been assigned. -/
def store_next (m : Nat → list_ele_t) (t : Option (Option Nat)) (head : Loc)
    (v : Option Nat) : (Nat → list_ele_t) × Option (Option Nat) :=
  match head with
  | Loc.tmp_head => (m, some v)
  | Loc.ele a => (set_next m a v, t)

/-- Loop of `q_merge`: `while (left && right) { ... head = head->next; }`. -/
def q_merge_loop : Nat → (Nat → list_ele_t) → Option (Option Nat) → Loc →
    Option Nat → Option Nat →
    Option ((Nat → list_ele_t) × Option (Option Nat) × Loc × Option Nat × Option Nat)
  | 0, m, t, head, left, right =>
    match left, right with
    | some _, some _ => none
    | _, _ => some (m, t, head, left, right)
  | fuel + 1, m, t, head, left, right =>
    match left, right with
    | some l, some r =>
      if strcasecmp (m l).value (m r).value ≤ 0 then
        let mt := store_next m t head (some l)
        q_merge_loop fuel mt.1 mt.2 (Loc.ele l) (mt.1 l).next (some r)
      else
        let mt := store_next m t head (some r)
        q_merge_loop fuel mt.1 mt.2 (Loc.ele r) (some l) (mt.1 r).next
    | _, _ => some (m, t, head, left, right)

/-- The statements of `q_merge` that follow its loop:
`if (left) head->next = left; if (right) head->next = right;`. -/
def q_merge_rest (m : Nat → list_ele_t) (t : Option (Option Nat)) (head : Loc)
    (left right : Option Nat) : (Nat → list_ele_t) × Option (Option Nat) :=
  let mt := match left with
    | some l => store_next m t head (some l)
    | none => (m, t)
  match right with
  | some r => store_next mt.1 mt.2 head (some r)
  | none => mt

/-- Function `q_merge`.  Reading `tmp_head.next` before any assignment to it has
no defined result. -/
def q_merge (fuel : Nat) (m : Nat → list_ele_t) (left right : Option Nat) :
    Option ((Nat → list_ele_t) × Option Nat) :=
  match q_merge_loop fuel m none Loc.tmp_head left right with
  | none => none
  | some (m1, t1, head, left1, right1) =>
    match (q_merge_rest m1 t1 head left1 right1).2 with
    | none => none
    | some p => some ((q_merge_rest m1 t1 head left1 right1).1, p)

/-- Loop of `q_merge_sort`:
`while (fast && fast->next) { slow = slow->next; fast = fast->next->next; }`.
The result is the final `slow`. -/
def q_merge_sort_loop : Nat → (Nat → list_ele_t) → Option Nat → Option Nat →
    Option (Option Nat)
  | 0, m, slow, fast =>
    match fast with
    | none => some slow
    | some f =>
      match (m f).next with
      | none => some slow
      | some _ => none
  | fuel + 1, m, slow, fast =>
    match fast with
    | none => some slow
    | some f =>
      match (m f).next with
      | none => some slow
      | some fn =>
        match slow with
        | none => none
        | some s => q_merge_sort_loop fuel m (m s).next (m fn).next

/-- Function `q_merge_sort`. -/
def q_merge_sort : Nat → (Nat → list_ele_t) → Option Nat →
    Option ((Nat → list_ele_t) × Option Nat)
  | 0, m, head =>
    match head with
    | none => some (m, head)
    | some hd =>
      match (m hd).next with
      | none => some (m, head)
      | some _ => none
  | fuel + 1, m, head =>
    match head with
    | none => some (m, head)
    | some hd =>
      match (m hd).next with
      | none => some (m, head)
      | some hn =>
        match q_merge_sort_loop fuel m (some hd) (some hn) with
        | some (some slow) =>
          let fast := (m slow).next
          let m1 := set_next m slow none
          match q_merge_sort fuel m1 head with
          | none => none
          | some (m2, left) =>
            match q_merge_sort fuel m2 fast with
            | none => none
            | some (m3, right) => q_merge fuel m3 left right
        | _ => none

/-- Function `q_sort`. -/
def q_sort (fuel : Nat) (st : State) : Option State :=
  match st.q with
  | none => some st
  | some q =>
    match q.head with
    | none => some st
    | some _ =>
      match q_merge_sort fuel st.mem q.head with
      | none => none
      | some (m, p) =>
        some { mem := m, live := st.live,
               q := some { head := p, tail := q.tail, size := q.size } }

/-! ## Reading a queue -/

/-- The list elements reached from `p` by following `next` up to `NULL` are
exactly `as`, in this order. -/
def Chain (m : Nat → list_ele_t) : Option Nat → List Nat → Prop
  | p, [] => p = none
  | p, a :: as => p = some a ∧ Chain m (m a).next as

instance Chain.decide (m : Nat → list_ele_t) :
    ∀ (p : Option Nat) (as : List Nat), Decidable (Chain m p as)
  | p, [] => inferInstanceAs (Decidable (p = none))
  | p, a :: as =>
    have := Chain.decide m (m a).next as
    inferInstanceAs (Decidable (p = some a ∧ Chain m (m a).next as))

/-- Values stored in the list elements `as`. -/
def values (m : Nat → list_ele_t) (as : List Nat) : List (List Nat) :=
  as.map fun a => (m a).value

/-- Heap in which nothing has been allocated. -/
def mem0 : Nat → list_ele_t := fun _ => { value := [], next := none }

/-- Allocation map in which nothing has been allocated. -/
def live0 : Nat → Bool := fun _ => false

/-- Comparison used by the merge step on list elements: `strcasecmp` of the two
values is at most `0`. -/
def le_ci (val : Nat → List Nat) (a b : Nat) : Bool :=
  decide (strcasecmp (val a) (val b) ≤ 0)

/-! ## The cursor of the merge step -/

/-- Value of `head->next` as `q_merge` reads it. -/
def load_next (m : Nat → list_ele_t) (t : Option (Option Nat)) : Loc → Option (Option Nat)
  | Loc.tmp_head => t
  | Loc.ele a => some (m a).next

/-- The cursor does not point into the list `as`. -/
def Loc.outside : Loc → List Nat → Prop
  | Loc.tmp_head, _ => True
  | Loc.ele c, as => c ∉ as

/-- The address `x` is not the list element the cursor points at. -/
def Loc.differs : Loc → Nat → Prop
  | Loc.tmp_head, _ => True
  | Loc.ele c, x => x ≠ c

/-- What `q_merge` has established once the statements after its loop have run:
`head->next` starts the merge of the two chains, and only the `next` fields of
their elements and of the cursor have been written. -/
def MergePost (val : Nat → List Nat) (m : Nat → list_ele_t) (t : Option (Option Nat))
    (head : Loc) (ls rs : List Nat) (r : (Nat → list_ele_t) × Option (Option Nat)) : Prop :=
  load_next r.1 r.2 head = some (List.merge ls rs (le_ci val)).head? ∧
  Chain r.1 (List.merge ls rs (le_ci val)).head? (List.merge ls rs (le_ci val)) ∧
  (∀ x, x ∉ ls → x ∉ rs → head.differs x → r.1 x = m x) ∧
  (∀ x, (r.1 x).value = val x) ∧
  (∀ c, head = Loc.ele c → r.2 = t)

/-- Comparison of list elements by the values the state `st` stores in them. -/
def le_in (st : State) : Nat → Nat → Bool :=
  le_ci fun x => (st.mem x).value

/-! ## Example queues -/

/-- The queue of the first scenario before it is sorted: a new queue into which
`"banana"`, `"Apple"` and `"cherry"` have been inserted at the tail. -/
def fruit_queue : State :=
  let s0 := q_new mem0 live0 true
  let s1 := (q_insert_tail s0 (some (cstr "banana")) (some 1) (some (List.replicate 7 85))).1
  let s2 := (q_insert_tail s1 (some (cstr "Apple")) (some 2) (some (List.replicate 6 85))).1
  (q_insert_tail s2 (some (cstr "cherry")) (some 3) (some (List.replicate 7 85))).1

/-- A queue emptied by `q_remove_head`: `q_new()`, then `q_insert_tail(q, "a")`
(the element is allocated at address `1`), then `q_remove_head(q, NULL, 0)`. -/
def emptied_queue : State :=
  let s0 := q_new mem0 live0 true
  let s1 := (q_insert_tail s0 (some (cstr "a")) (some 1) (some (List.replicate 2 85))).1
  (q_remove_head s1 none 0).1

/-- The queue of the second scenario: a new queue into which `"a"`, `"b"` and
`"c"` have been inserted at the head. -/
def abc_queue : State :=
  let s0 := q_new mem0 live0 true
  let s1 := (q_insert_head s0 (some (cstr "a")) (some 1) (some (List.replicate 2 85))).1
  let s2 := (q_insert_head s1 (some (cstr "b")) (some 2) (some (List.replicate 2 85))).1
  (q_insert_head s2 (some (cstr "c")) (some 3) (some (List.replicate 2 85))).1

/-- A queue holding the single string `"xy"`. -/
def xy_queue : State :=
  (q_insert_tail (q_new mem0 live0 true) (some (cstr "xy")) (some 1)
    (some (List.replicate 3 85))).1

/-! ## Sequences of calls: definitions -/

/-- One call of `q_insert_head`, `q_insert_tail` or `q_remove_head`, with its
arguments and the outcomes of the allocations it makes. -/
inductive Call where
  | insert_head (s : Option (List Nat)) (newh : Option Nat) (value_new : Option (List Nat))
  | insert_tail (s : Option (List Nat)) (newt : Option Nat) (value_new : Option (List Nat))
  | remove_head (sp : Option (List Nat)) (bufsize : Nat)

/-- State after the call and the boolean it returns, `none` when the call does
not return. -/
def call (st : State) : Call → State × Option Bool
  | Call.insert_head s newh value_new =>
    ((q_insert_head st s newh value_new).1, some (q_insert_head st s newh value_new).2)
  | Call.insert_tail s newt value_new =>
    ((q_insert_tail st s newt value_new).1, some (q_insert_tail st s newt value_new).2)
  | Call.remove_head sp bufsize =>
    ((q_remove_head st sp bufsize).1, (q_remove_head st sp bufsize).2.2)

/-- State after a sequence of calls.  A call that does not return ends the run:
the calls after it are not made. -/
def run (st : State) : List Call → State
  | [] => st
  | c :: cs =>
    match (call st c).2 with
    | none => (call st c).1
    | some _ => run (call st c).1 cs

/-- What a call adds to the count "inserts that returned true minus removes that
returned true". -/
def counted (st : State) : Call → Int
  | Call.insert_head s newh value_new =>
    if (q_insert_head st s newh value_new).2 then 1 else 0
  | Call.insert_tail s newt value_new =>
    if (q_insert_tail st s newt value_new).2 then 1 else 0
  | Call.remove_head sp bufsize =>
    if (q_remove_head st sp bufsize).2.2 = some true then -1 else 0

/-- Number of inserts that returned true minus number of removes that returned
true along a sequence of calls started in `st`, up to the first call that does
not return. -/
def net_inserted (st : State) : List Call → Int
  | [] => 0
  | c :: cs =>
    match (call st c).2 with
    | none => 0
    | some _ => counted st c + net_inserted (call st c).1 cs

/-! ## Further example states -/

/-- A queue into which `"b"` and then `"a"` have been inserted at the tail: its
last element, at address `2`, holds the smallest value. -/
def ba_queue : State :=
  let s0 := q_new mem0 live0 true
  let s1 := (q_insert_tail s0 (some (cstr "b")) (some 1) (some (List.replicate 2 85))).1
  (q_insert_tail s1 (some (cstr "a")) (some 2) (some (List.replicate 2 85))).1

/-- A queue into which `"b"`, `"a"` and `"A"` have been inserted at the tail; the
values at addresses `2` and `3` compare equal. -/
def baA_queue : State :=
  let s0 := q_new mem0 live0 true
  let s1 := (q_insert_tail s0 (some (cstr "b")) (some 1) (some (List.replicate 2 85))).1
  let s2 := (q_insert_tail s1 (some (cstr "a")) (some 2) (some (List.replicate 2 85))).1
  (q_insert_tail s2 (some (cstr "A")) (some 3) (some (List.replicate 2 85))).1

/-- A queue into which `"a"` and then `"b"` have been inserted at the tail: it is
already in ascending order. -/
def ab_queue : State :=
  let s0 := q_new mem0 live0 true
  let s1 := (q_insert_tail s0 (some (cstr "a")) (some 1) (some (List.replicate 2 85))).1
  (q_insert_tail s1 (some (cstr "b")) (some 2) (some (List.replicate 2 85))).1

/-- The call `q_insert_head(q, s)` immediately followed by
`q_remove_head(q, sp, bufsize)`. -/
def insert_then_remove (st : State) (s : Option (List Nat)) (newh : Option Nat)
    (value_new : Option (List Nat)) (sp : Option (List Nat)) (bufsize : Nat) :
    State × Option (List Nat) × Option Bool :=
  q_remove_head (q_insert_head st s newh value_new).1 sp bufsize

/-- A heap holding two sorted chains: `1 → 3` with the values "a", "c" and
`2 → 4` with the values "A", "b". -/
def two_chains : Nat → list_ele_t := fun x =>
  if x = 1 then { value := cstr "a", next := some 3 }
  else if x = 3 then { value := cstr "c", next := none }
  else if x = 2 then { value := cstr "A", next := some 4 }
  else if x = 4 then { value := cstr "b", next := none }
  else { value := [], next := none }

/-! ## Large inputs -/

/-- A string of `2 ^ 32 + 1` bytes `'a'` followed by its terminator. -/
def long_string : List Nat :=
  List.replicate (4294967296 + 1) 97 ++ [0]

/-- A heap in which the elements `0, 1, ..., INT_MAX - 1` form one chain, each
holding the empty string. -/
def long_heap : Nat → list_ele_t := fun x =>
  { value := [0], next := if x + 1 < 2147483647 then some (x + 1) else none }

/-- The well-formed queue of `INT_MAX` elements on `long_heap`. -/
def full_queue : State :=
  { mem := long_heap,
    live := fun x => decide (x < 2147483647),
    q := some { head := some 0, tail := some 2147483646, size := 2147483647 } }

/-- The calls `q_insert_head(q, "")` repeated `2 ^ 31` times, each with a fresh
element (the addresses `0, 1, 2, ...`) and a block of one byte for the value. -/
def many_inserts : List Call :=
  (List.range 2147483648).map fun i => Call.insert_head (some [0]) (some i) (some [0])

/-! # Theorems -/

/-! ## Stores -/

theorem set_next_same (m : Nat → list_ele_t) (p : Nat) (v : Option Nat) :
    (set_next m p v p).next = v := by
  simp [set_next]

theorem set_next_other (m : Nat → list_ele_t) (p : Nat) (v : Option Nat) (x : Nat)
    (h : x ≠ p) : set_next m p v x = m x := by
  simp [set_next, h]

theorem set_next_value (m : Nat → list_ele_t) (p : Nat) (v : Option Nat) (x : Nat) :
    (set_next m p v x).value = (m x).value := by
  unfold set_next
  split <;> rfl

/-! ## Chains -/

theorem Chain.frame {m m1 : Nat → list_ele_t} :
    ∀ {as : List Nat} {p : Option Nat}, (∀ a ∈ as, (m1 a).next = (m a).next) →
      Chain m p as → Chain m1 p as
  | [], _, _, h => h
  | a :: as, _, hm, h => by
    refine ⟨h.1, ?_⟩
    rw [hm a (List.mem_cons_self a as)]
    exact Chain.frame (fun x hx => hm x (List.mem_cons_of_mem a hx)) h.2

theorem Chain.unique {m : Nat → list_ele_t} :
    ∀ {as bs : List Nat} {p : Option Nat}, Chain m p as → Chain m p bs → as = bs
  | [], [], _, _, _ => rfl
  | [], b :: bs, p, h1, h2 => by
    have e1 : p = none := h1
    have e2 : p = some b := h2.1
    rw [e1] at e2
    cases e2
  | a :: as, [], p, h1, h2 => by
    have e1 : p = none := h2
    have e2 : p = some a := h1.1
    rw [e1] at e2
    cases e2
  | a :: as, b :: bs, p, h1, h2 => by
    have e1 : p = some a := h1.1
    have e2 : p = some b := h2.1
    rw [e1] at e2
    cases e2
    rw [Chain.unique h1.2 h2.2]

theorem Chain.suffix {m : Nat → list_ele_t} :
    ∀ {xs : List Nat} {a : Nat} {ys : List Nat} {p : Option Nat},
      Chain m p (xs ++ a :: ys) → Chain m (some a) (a :: ys)
  | [], _, _, _, h => ⟨rfl, h.2⟩
  | _ :: xs, _, _, _, h => @Chain.suffix _ xs _ _ _ h.2

theorem Chain.nodup {m : Nat → list_ele_t} :
    ∀ {as : List Nat} {p : Option Nat}, Chain m p as → as.Nodup
  | [], _, _ => List.nodup_nil
  | a :: as, _, h => by
    refine List.nodup_cons.mpr ⟨?_, Chain.nodup h.2⟩
    intro hmem
    obtain ⟨xs, ys, rfl⟩ := List.append_of_mem hmem
    have h1 : Chain m (some a) (a :: ys) := Chain.suffix h.2
    have h2 := Chain.unique h1.2 h.2
    have h3 := congrArg List.length h2
    simp at h3
    omega

theorem Chain.head_eq {m : Nat → list_ele_t} {p : Option Nat} {as : List Nat}
    (h : Chain m p as) : p = as.head? := by
  cases as with
  | nil => exact h
  | cons a as => exact h.1

/-! ## Case-insensitive comparison -/

theorem tolower_eq_zero (c : Nat) : tolower c = 0 ↔ c = 0 := by
  unfold tolower
  split <;> omega

theorem strcasecmp_swap : ∀ a b : List Nat, strcasecmp b a = - strcasecmp a b
  | [], [] => by simp [strcasecmp]
  | [], b :: _ => by simp [strcasecmp]
  | a :: _, [] => by simp [strcasecmp]
  | a :: as, b :: bs => by
    have ih := strcasecmp_swap as bs
    have hz := tolower_eq_zero a
    have hz1 := tolower_eq_zero b
    by_cases h : tolower a = tolower b
    · by_cases h0 : a = 0
      · have hb : b = 0 := by omega
        simp [strcasecmp, h0, hb]
      · have hb : b ≠ 0 := by omega
        simp [strcasecmp, h, h0, hb, ih]
    · have h1 : ¬ tolower b = tolower a := fun e => h e.symm
      simp [strcasecmp, h, h1]

theorem strcasecmp_total (a b : List Nat) (h : ¬ strcasecmp a b ≤ 0) :
    strcasecmp b a ≤ 0 := by
  rw [strcasecmp_swap a b]
  omega

theorem strcasecmp_trans : ∀ a b c : List Nat,
    strcasecmp a b ≤ 0 → strcasecmp b c ≤ 0 → strcasecmp a c ≤ 0
  | [], _, [] => by simp [strcasecmp]
  | [], _, c :: _ => by simp [strcasecmp]
  | a :: as, [], [] => by
    intro h _
    exact h
  | a :: as, [], c :: cs => by
    intro h _
    have hz := tolower_eq_zero a
    have ha : a = 0 := by
      simp [strcasecmp] at h
      omega
    subst ha
    by_cases hc : tolower 0 = tolower c
    · simp [strcasecmp, hc]
    · simp only [strcasecmp, hc, if_false]
      have : tolower 0 = 0 := by decide
      omega
  | a :: as, b :: bs, [] => by
    intro h1 h2
    have hzb := tolower_eq_zero b
    have hb : b = 0 := by
      simp [strcasecmp] at h2
      omega
    subst hb
    have hz0 : tolower 0 = 0 := by decide
    by_cases hab : tolower a = tolower 0
    · simp [strcasecmp]
      omega
    · simp only [strcasecmp, hab, if_false] at h1
      omega
  | a :: as, b :: bs, c :: cs => by
    intro h1 h2
    have ih := strcasecmp_trans as bs cs
    have hza := tolower_eq_zero a
    have hzb := tolower_eq_zero b
    by_cases hab : tolower a = tolower b
    · by_cases hbc : tolower b = tolower c
      · have hac : tolower a = tolower c := hab.trans hbc
        by_cases h0 : a = 0
        · rw [strcasecmp, if_pos hac, if_pos h0]
        · have hb0 : b ≠ 0 := by omega
          simp only [strcasecmp, hab, hbc, hac, h0, hb0, if_true, if_false] at h1 h2 ⊢
          exact ih h1 h2
      · have hac : ¬ tolower a = tolower c := by omega
        simp only [strcasecmp, hbc, hac, if_false] at h2 ⊢
        omega
    · by_cases hbc : tolower b = tolower c
      · have hac : ¬ tolower a = tolower c := by omega
        simp only [strcasecmp, hab, hac, if_false] at h1 ⊢
        omega
      · simp only [strcasecmp, hab, hbc, if_false] at h1 h2
        have hac : ¬ tolower a = tolower c := by omega
        simp only [strcasecmp, hac, if_false]
        omega

theorem le_ci_total (val : Nat → List Nat) (a b : Nat) :
    (le_ci val a b || le_ci val b a) = true := by
  simp only [le_ci, Bool.or_eq_true, decide_eq_true_eq]
  by_cases h : strcasecmp (val a) (val b) ≤ 0
  · exact Or.inl h
  · exact Or.inr (strcasecmp_total _ _ h)

theorem le_ci_trans (val : Nat → List Nat) (a b c : Nat) :
    le_ci val a b = true → le_ci val b c = true → le_ci val a c = true := by
  intro h1 h2
  simp only [le_ci, decide_eq_true_eq] at h1 h2 ⊢
  exact strcasecmp_trans _ _ _ h1 h2

/-! ## The merge step -/

theorem store_next_load (m : Nat → list_ele_t) (t : Option (Option Nat)) (head : Loc)
    (v : Option Nat) :
    load_next (store_next m t head v).1 (store_next m t head v).2 head = some v := by
  cases head with
  | tmp_head => rfl
  | ele c => simp [store_next, load_next, set_next_same]

theorem store_next_differs (m : Nat → list_ele_t) (t : Option (Option Nat)) (head : Loc)
    (v : Option Nat) (x : Nat) (h : head.differs x) : (store_next m t head v).1 x = m x := by
  cases head with
  | tmp_head => rfl
  | ele c => exact set_next_other m c v x h

theorem store_next_value (m : Nat → list_ele_t) (t : Option (Option Nat)) (head : Loc)
    (v : Option Nat) (x : Nat) : ((store_next m t head v).1 x).value = (m x).value := by
  cases head with
  | tmp_head => rfl
  | ele c => exact set_next_value m c v x

theorem store_next_ele (m : Nat → list_ele_t) (t : Option (Option Nat)) (c : Nat)
    (v : Option Nat) : (store_next m t (Loc.ele c) v).2 = t := rfl

theorem Loc.differs_of_outside {head : Loc} {as : List Nat} (h : head.outside as)
    {x : Nat} (hx : x ∈ as) : head.differs x := by
  cases head with
  | tmp_head => trivial
  | ele c =>
    intro e
    subst e
    exact h hx

theorem load_next_congr (m m1 : Nat → list_ele_t) (t : Option (Option Nat)) (head : Loc)
    (h : ∀ x, ¬ head.differs x → m1 x = m x) : load_next m1 t head = load_next m t head := by
  cases head with
  | tmp_head => rfl
  | ele c =>
    have := h c (fun hd => hd rfl)
    simp [load_next, this]

theorem q_merge_rest_right (val : Nat → List Nat) (m : Nat → list_ele_t)
    (t : Option (Option Nat)) (head : Loc) (r : Nat) (rs : List Nat)
    (hval : ∀ x, (m x).value = val x) (hr : Chain m (some r) (r :: rs))
    (ho : head.outside (r :: rs)) :
    MergePost val m t head [] (r :: rs) (q_merge_rest m t head none (some r)) := by
  have e : q_merge_rest m t head none (some r) = store_next m t head (some r) := rfl
  rw [e]
  refine ⟨?_, ?_, ?_, ?_, ?_⟩
  · rw [List.nil_merge]
    exact store_next_load m t head (some r)
  · rw [List.nil_merge]
    exact Chain.frame
      (fun a ha => by rw [store_next_differs m t head _ a (Loc.differs_of_outside ho ha)]) hr
  · intro x _ _ hd
    exact store_next_differs m t head _ x hd
  · intro x
    rw [store_next_value, hval]
  · intro c hc
    subst hc
    rfl

theorem q_merge_rest_left (val : Nat → List Nat) (m : Nat → list_ele_t)
    (t : Option (Option Nat)) (head : Loc) (l : Nat) (ls : List Nat)
    (hval : ∀ x, (m x).value = val x) (hl : Chain m (some l) (l :: ls))
    (ho : head.outside (l :: ls)) :
    MergePost val m t head (l :: ls) [] (q_merge_rest m t head (some l) none) := by
  have e : q_merge_rest m t head (some l) none = store_next m t head (some l) := rfl
  rw [e]
  refine ⟨?_, ?_, ?_, ?_, ?_⟩
  · rw [List.merge_right]
    exact store_next_load m t head (some l)
  · rw [List.merge_right]
    exact Chain.frame
      (fun a ha => by rw [store_next_differs m t head _ a (Loc.differs_of_outside ho ha)]) hl
  · intro x _ _ hd
    exact store_next_differs m t head _ x hd
  · intro x
    rw [store_next_value, hval]
  · intro c hc
    subst hc
    rfl

/-- One turn of the loop of `q_merge`, seen from its end: when the rest of the run
establishes `MergePost` for the cursor `Loc.ele a` and the remaining chains, whose
merge is `rest`, the whole run establishes it for `a :: rest`. -/
theorem MergePost.step (val : Nat → List Nat) (m : Nat → list_ele_t)
    (t : Option (Option Nat)) (head : Loc) (a : Nat) (v : Option Nat)
    (ls rs ls1 rs1 : List Nat) (r : (Nat → list_ele_t) × Option (Option Nat))
    (hv : v = some a)
    (hmerge : List.merge ls rs (le_ci val) = a :: List.merge ls1 rs1 (le_ci val))
    (hsub1 : ∀ x, x ∉ ls → x ∉ ls1) (hsub2 : ∀ x, x ∉ rs → x ∉ rs1)
    (ha : a ∈ ls ∨ a ∈ rs)
    (hout1 : head.outside ls1) (hout2 : head.outside rs1) (hda : head.differs a)
    (post : MergePost val (store_next m t head v).1 (store_next m t head v).2
      (Loc.ele a) ls1 rs1 r) :
    MergePost val m t head ls rs r := by
  obtain ⟨p1, p2, p3, p4, p5⟩ := post
  have hr2 : r.2 = (store_next m t head v).2 := p5 a rfl
  have hnext : (r.1 a).next = (List.merge ls1 rs1 (le_ci val)).head? := by
    simpa [load_next] using p1
  refine ⟨?_, ?_, ?_, p4, ?_⟩
  · rw [hmerge, List.head?_cons, ← hv, hr2]
    cases head with
    | tmp_head => rfl
    | ele c =>
      have hc : r.1 c = (store_next m t (Loc.ele c) v).1 c :=
        p3 c hout1 hout2 (fun e => hda e.symm)
      simp [load_next, hc, store_next, set_next_same]
  · rw [hmerge]
    exact ⟨rfl, by rw [hnext]; exact p2⟩
  · intro x hx1 hx2 hd
    have hxa : x ≠ a := by
      intro e
      subst e
      cases ha with
      | inl h => exact hx1 h
      | inr h => exact hx2 h
    rw [p3 x (hsub1 x hx1) (hsub2 x hx2) hxa]
    exact store_next_differs m t head v x hd
  · intro c hc
    subst hc
    rw [hr2]
    rfl

theorem q_merge_loop_stop_left (fuel : Nat) (m : Nat → list_ele_t)
    (t : Option (Option Nat)) (head : Loc) (right : Option Nat) :
    q_merge_loop fuel m t head none right = some (m, t, head, none, right) := by
  cases fuel <;> rfl

theorem q_merge_loop_stop_right (fuel : Nat) (m : Nat → list_ele_t)
    (t : Option (Option Nat)) (head : Loc) (left : Option Nat) :
    q_merge_loop fuel m t head left none = some (m, t, head, left, none) := by
  cases fuel <;> cases left <;> rfl

theorem q_merge_loop_spec (val : Nat → List Nat) :
    ∀ (fuel : Nat) (ls rs : List Nat) (m : Nat → list_ele_t) (t : Option (Option Nat))
      (head : Loc) (left right : Option Nat),
      (∀ x, (m x).value = val x) → Chain m left ls → Chain m right rs →
      (∀ x ∈ ls, x ∉ rs) → head.outside ls → head.outside rs →
      (ls ≠ [] ∨ rs ≠ []) → ls.length + rs.length ≤ fuel + 1 →
      ∃ res, q_merge_loop fuel m t head left right = some res ∧
        MergePost val m t head ls rs
          (q_merge_rest res.1 res.2.1 res.2.2.1 res.2.2.2.1 res.2.2.2.2) := by
  intro fuel
  induction fuel with
  | zero =>
    intro ls rs m t head left right hval hl hr _ hol hor hne hlen
    cases ls with
    | nil =>
      cases rs with
      | nil => simp at hne
      | cons r rs =>
        have e1 : left = none := hl
        have e2 : right = some r := hr.1
        subst e1 e2
        exact ⟨_, q_merge_loop_stop_left _ _ _ _ _, q_merge_rest_right val m t head r rs hval hr hor⟩
    | cons l ls =>
      cases rs with
      | nil =>
        have e1 : left = some l := hl.1
        have e2 : right = none := hr
        subst e1 e2
        exact ⟨_, q_merge_loop_stop_right _ _ _ _ _, q_merge_rest_left val m t head l ls hval hl hol⟩
      | cons r rs =>
        simp at hlen
        omega
  | succ fuel ih =>
    intro ls rs m t head left right hval hl hr hdisj hol hor hne hlen
    cases ls with
    | nil =>
      cases rs with
      | nil => simp at hne
      | cons r rs =>
        have e1 : left = none := hl
        have e2 : right = some r := hr.1
        subst e1 e2
        exact ⟨_, q_merge_loop_stop_left _ _ _ _ _, q_merge_rest_right val m t head r rs hval hr hor⟩
    | cons l ls =>
      cases rs with
      | nil =>
        have e1 : left = some l := hl.1
        have e2 : right = none := hr
        subst e1 e2
        exact ⟨_, q_merge_loop_stop_right _ _ _ _ _, q_merge_rest_left val m t head l ls hval hl hol⟩
      | cons r rs =>
        have e1 : left = some l := hl.1
        have e2 : right = some r := hr.1
        subst e1 e2
        have hdl : head.differs l := Loc.differs_of_outside hol (List.mem_cons_self l ls)
        have hdr : head.differs r := Loc.differs_of_outside hor (List.mem_cons_self r rs)
        have hndl := List.nodup_cons.mp (Chain.nodup hl)
        have hndr := List.nodup_cons.mp (Chain.nodup hr)
        have hlen1 : ls.length + rs.length + 1 ≤ fuel + 1 := by
          simp only [List.length_cons] at hlen
          omega
        by_cases hc : strcasecmp (m l).value (m r).value ≤ 0
        · have hle : le_ci val l r = true := by
            simp only [le_ci, decide_eq_true_eq, ← hval]
            exact hc
          have hloop : q_merge_loop (fuel + 1) m t head (some l) (some r) =
              q_merge_loop fuel (store_next m t head (some l)).1 (store_next m t head (some l)).2
                (Loc.ele l) ((store_next m t head (some l)).1 l).next (some r) := by
            simp only [q_merge_loop, if_pos hc]
          have hfr : ∀ a, head.differs a → (store_next m t head (some l)).1 a = m a :=
            fun a ha => store_next_differs m t head _ a ha
          have hl1 : Chain (store_next m t head (some l)).1
              ((store_next m t head (some l)).1 l).next ls := by
            rw [hfr l hdl]
            exact Chain.frame (fun a ha => by
              rw [hfr a (Loc.differs_of_outside hol (List.mem_cons_of_mem l ha))]) hl.2
          have hr1 : Chain (store_next m t head (some l)).1 (some r) (r :: rs) :=
            Chain.frame (fun a ha => by rw [hfr a (Loc.differs_of_outside hor ha)]) hr
          obtain ⟨res, hres, post⟩ := ih ls (r :: rs) _ (store_next m t head (some l)).2
            (Loc.ele l) _ (some r)
            (fun x => by rw [store_next_value, hval]) hl1 hr1
            (fun x hx => hdisj x (List.mem_cons_of_mem l hx))
            hndl.1 (hdisj l (List.mem_cons_self l ls)) (Or.inr (List.cons_ne_nil r rs))
            (by simp only [List.length_cons]; omega)
          refine ⟨res, hloop.trans hres, ?_⟩
          exact MergePost.step val m t head l (some l) (l :: ls) (r :: rs) ls (r :: rs) _ rfl
            (List.cons_merge_cons_pos _ _ _ hle)
            (fun x hx hx1 => hx (List.mem_cons_of_mem l hx1)) (fun x hx => hx)
            (Or.inl (List.mem_cons_self l ls))
            (by
              cases head with
              | tmp_head => trivial
              | ele c => exact fun hc1 => hol (List.mem_cons_of_mem l hc1))
            hor hdl post
        · have hle : ¬ le_ci val l r = true := by
            simp only [le_ci, decide_eq_true_eq, ← hval]
            exact hc
          have hloop : q_merge_loop (fuel + 1) m t head (some l) (some r) =
              q_merge_loop fuel (store_next m t head (some r)).1 (store_next m t head (some r)).2
                (Loc.ele r) (some l) ((store_next m t head (some r)).1 r).next := by
            simp only [q_merge_loop, if_neg hc]
          have hfr : ∀ a, head.differs a → (store_next m t head (some r)).1 a = m a :=
            fun a ha => store_next_differs m t head _ a ha
          have hr1 : Chain (store_next m t head (some r)).1
              ((store_next m t head (some r)).1 r).next rs := by
            rw [hfr r hdr]
            exact Chain.frame (fun a ha => by
              rw [hfr a (Loc.differs_of_outside hor (List.mem_cons_of_mem r ha))]) hr.2
          have hl1 : Chain (store_next m t head (some r)).1 (some l) (l :: ls) :=
            Chain.frame (fun a ha => by rw [hfr a (Loc.differs_of_outside hol ha)]) hl
          obtain ⟨res, hres, post⟩ := ih (l :: ls) rs _ (store_next m t head (some r)).2
            (Loc.ele r) (some l) _
            (fun x => by rw [store_next_value, hval]) hl1 hr1
            (fun x hx hx1 => hdisj x hx (List.mem_cons_of_mem r hx1))
            (fun hr2 => hdisj r hr2 (List.mem_cons_self r rs)) hndr.1
            (Or.inl (List.cons_ne_nil l ls))
            (by simp only [List.length_cons]; omega)
          refine ⟨res, hloop.trans hres, ?_⟩
          exact MergePost.step val m t head r (some r) (l :: ls) (r :: rs) (l :: ls) rs _ rfl
            (List.cons_merge_cons_neg _ _ _ hle)
            (fun x hx => hx) (fun x hx hx1 => hx (List.mem_cons_of_mem r hx1))
            (Or.inr (List.mem_cons_self r rs))
            hol
            (by
              cases head with
              | tmp_head => trivial
              | ele c => exact fun hc1 => hor (List.mem_cons_of_mem r hc1))
            hdr post

theorem q_merge_spec (val : Nat → List Nat) (fuel : Nat) (m : Nat → list_ele_t)
    (left right : Option Nat) (ls rs : List Nat)
    (hval : ∀ x, (m x).value = val x) (hl : Chain m left ls) (hr : Chain m right rs)
    (hdisj : ∀ x ∈ ls, x ∉ rs) (hne : ls ≠ [] ∨ rs ≠ [])
    (hlen : ls.length + rs.length ≤ fuel + 1) :
    ∃ m1, q_merge fuel m left right = some (m1, (List.merge ls rs (le_ci val)).head?) ∧
      Chain m1 (List.merge ls rs (le_ci val)).head? (List.merge ls rs (le_ci val)) ∧
      (∀ x, x ∉ ls → x ∉ rs → m1 x = m x) ∧ (∀ x, (m1 x).value = val x) := by
  obtain ⟨res, hres, p1, p2, p3, p4, _⟩ :=
    q_merge_loop_spec val fuel ls rs m none Loc.tmp_head left right hval hl hr hdisj
      trivial trivial hne hlen
  obtain ⟨m1, t1, head1, left1, right1⟩ := res
  have hload : (q_merge_rest m1 t1 head1 left1 right1).2 =
      some (List.merge ls rs (le_ci val)).head? := p1
  refine ⟨(q_merge_rest m1 t1 head1 left1 right1).1, ?_, p2, fun x h1 h2 => p3 x h1 h2 trivial, p4⟩
  simp only [q_merge, hres, hload]

/-! ## Finding the middle -/

theorem q_merge_sort_loop_spec (m : Nat → list_ele_t) :
    ∀ (fuel : Nat) (s : Nat) (post fl : List Nat) (fast : Option Nat) (k : Nat),
      Chain m (some s) (s :: post) → Chain m fast fl → fl.length + k = post.length →
      fl.length ≤ 2 * fuel + 1 →
      ∃ mid s1 post1, q_merge_sort_loop fuel m (some s) fast = some (some s1) ∧
        s :: post = mid ++ s1 :: post1 ∧
        (post1.length = k + mid.length ∨ post1.length = k + mid.length + 1) := by
  intro fuel
  induction fuel with
  | zero =>
    intro s post fl fast k _ hf hk hlen
    cases fl with
    | nil =>
      have e : fast = none := hf
      subst e
      refine ⟨[], s, post, rfl, rfl, ?_⟩
      simp at hk ⊢
      omega
    | cons f fl =>
      have e : fast = some f := hf.1
      subst e
      cases fl with
      | nil =>
        have e2 : (m f).next = none := hf.2
        refine ⟨[], s, post, ?_, rfl, ?_⟩
        · simp [q_merge_sort_loop, e2]
        · simp at hk ⊢
          omega
      | cons g fl =>
        simp at hlen
  | succ fuel ih =>
    intro s post fl fast k hs hf hk hlen
    cases fl with
    | nil =>
      have e : fast = none := hf
      subst e
      refine ⟨[], s, post, rfl, rfl, ?_⟩
      simp at hk ⊢
      omega
    | cons f fl =>
      have e : fast = some f := hf.1
      subst e
      cases fl with
      | nil =>
        have e2 : (m f).next = none := hf.2
        refine ⟨[], s, post, ?_, rfl, ?_⟩
        · simp [q_merge_sort_loop, e2]
        · simp at hk ⊢
          omega
      | cons g fl =>
        have e2 : (m f).next = some g := hf.2.1
        cases post with
        | nil => simp at hk
        | cons s2 post =>
          have e3 : (m s).next = some s2 := hs.2.1
          have hs2 : Chain m (some s2) (s2 :: post) := ⟨rfl, hs.2.2⟩
          obtain ⟨mid, s1, post1, hrun, hsplit, hcount⟩ :=
            ih s2 post fl (m g).next (k + 1) hs2 hf.2.2
              (by simp only [List.length_cons] at hk ⊢; omega)
              (by simp only [List.length_cons] at hlen; omega)
          refine ⟨s :: mid, s1, post1, ?_, ?_, ?_⟩
          · simp only [q_merge_sort_loop, e2, e3]
            exact hrun
          · rw [hsplit]
            rfl
          · simp only [List.length_cons]
            omega

/-! ## The merge sort -/

theorem mergeSort_halves (le : Nat → Nat → Bool) (mid : List Nat) (s1 : Nat)
    (post1 : List Nat) (hmid : 1 ≤ post1.length)
    (hcount : post1.length = mid.length ∨ post1.length = mid.length + 1) :
    (mid ++ s1 :: post1).mergeSort le =
      List.merge ((mid ++ [s1]).mergeSort le) (post1.mergeSort le) le := by
  have hlen : (mid ++ s1 :: post1).length = mid.length + 1 + post1.length := by
    simp
    omega
  have hhalf : ((mid ++ s1 :: post1).length + 1) / 2 = (mid ++ [s1]).length := by
    rw [hlen]
    simp
    omega
  have hsplit : mid ++ s1 :: post1 = (mid ++ [s1]) ++ post1 := by simp
  have htake : (mid ++ s1 :: post1).take (((mid ++ s1 :: post1).length + 1) / 2) =
      mid ++ [s1] := by
    rw [hhalf, hsplit]
    exact List.take_left' rfl
  have hdrop : (mid ++ s1 :: post1).drop (((mid ++ s1 :: post1).length + 1) / 2) =
      post1 := by
    rw [hhalf, hsplit]
    exact List.drop_left' rfl
  generalize hL : mid ++ s1 :: post1 = L at htake hdrop hlen
  match L, hlen with
  | [], h =>
    simp only [List.length_nil] at h
    omega
  | [_], h =>
    simp only [List.length_cons, List.length_nil] at h
    omega
  | a :: b :: xs, _ =>
    rw [List.mergeSort]
    simp only [List.splitInTwo_fst, List.splitInTwo_snd]
    rw [htake, hdrop]

theorem Chain.cut {m : Nat → list_ele_t} :
    ∀ {mid : List Nat} {s : Nat} {post : List Nat} {p : Option Nat},
      Chain m p (mid ++ s :: post) → s ∉ mid → Chain (set_next m s none) p (mid ++ [s])
  | [], s, _, _, h, _ => ⟨h.1, set_next_same m s none⟩
  | a :: mid, s, _, _, h, hs => by
    have hne : a ≠ s := fun e => hs (e ▸ List.mem_cons_self a mid)
    refine ⟨h.1, ?_⟩
    rw [set_next_other m s none a hne]
    exact Chain.cut h.2 (fun hm => hs (List.mem_cons_of_mem a hm))

/-- Function `q_merge_sort` computes the stable merge sort of the chain it is given:
with fuel for the length of the chain it returns, the chain read from the
returned pointer is `List.mergeSort` of the input chain, and only `next` fields
of elements of the chain are written. -/
theorem q_merge_sort_spec (val : Nat → List Nat) :
    ∀ (fuel : Nat) (m : Nat → list_ele_t) (head : Option Nat) (L : List Nat),
      (∀ x, (m x).value = val x) → Chain m head L → L.length ≤ fuel →
      ∃ m1, q_merge_sort fuel m head = some (m1, (L.mergeSort (le_ci val)).head?) ∧
        Chain m1 (L.mergeSort (le_ci val)).head? (L.mergeSort (le_ci val)) ∧
        (∀ x, x ∉ L → m1 x = m x) ∧ (∀ x, (m1 x).value = val x) := by
  intro fuel
  induction fuel with
  | zero =>
    intro m head L hval hc hlen
    have hL : L = [] := List.length_eq_zero.mp (Nat.le_zero.mp hlen)
    subst hL
    have e : head = none := hc
    subst e
    exact ⟨m, by simp [q_merge_sort], by simp [Chain], fun _ _ => rfl, hval⟩
  | succ fuel ih =>
    intro m head L hval hc hlen
    match L, hc, hlen with
    | [], hc, _ =>
      have e : head = none := hc
      subst e
      exact ⟨m, by simp [q_merge_sort], by simp [Chain], fun _ _ => rfl, hval⟩
    | [a], hc, _ =>
      have e : head = some a := hc.1
      subst e
      have e2 : (m a).next = none := hc.2
      refine ⟨m, ?_, ?_, fun _ _ => rfl, hval⟩
      · simp [q_merge_sort, e2]
      · simpa using hc
    | a :: b :: xs, hc, hlen =>
      have e : head = some a := hc.1
      subst e
      have e2 : (m a).next = some b := hc.2.1
      have hnd : (a :: b :: xs).Nodup := Chain.nodup hc
      obtain ⟨mid, s1, post1, hrun, hsplit, hcount⟩ :=
        q_merge_sort_loop_spec m fuel a (b :: xs) (b :: xs) (some b) 0 hc ⟨rfl, hc.2.2⟩
          (by simp) (by simp only [List.length_cons] at hlen ⊢; omega)
      have hn : (a :: b :: xs).length = mid.length + 1 + post1.length := by
        rw [hsplit]
        simp
        omega
      simp only [List.length_cons] at hn hlen
      rw [hsplit] at hc hnd
      have hnd1 := List.nodup_append.mp hnd
      have hs1mid : s1 ∉ mid := fun h => hnd1.2.2 h (List.mem_cons_self s1 post1)
      have hs1post : s1 ∉ post1 := (List.nodup_cons.mp hnd1.2.1).1
      have hmidpost : ∀ x ∈ mid, x ∉ post1 :=
        fun x hx hx1 => hnd1.2.2 hx (List.mem_cons_of_mem s1 hx1)
      have hleft0 : Chain (set_next m s1 none) (some a) (mid ++ [s1]) := Chain.cut hc hs1mid
      have hright0 : Chain (set_next m s1 none) (m s1).next post1 :=
        Chain.frame (fun x hx => by
          rw [set_next_other m s1 none x (fun e => hs1post (e ▸ hx))]) (Chain.suffix hc).2
      obtain ⟨m2, hrun2, hleft2, hfr2, hval2⟩ :=
        ih (set_next m s1 none) (some a) (mid ++ [s1])
          (fun x => by rw [set_next_value, hval]) hleft0
          (by simp only [List.length_append, List.length_cons, List.length_nil]; omega)
      have hleftdisj : ∀ x ∈ mid ++ [s1], x ∉ post1 := by
        intro x hx
        rcases List.mem_append.mp hx with h | h
        · exact hmidpost x h
        · rw [List.mem_singleton.mp h]
          exact hs1post
      have hright2 : Chain m2 (m s1).next post1 :=
        Chain.frame (fun x hx => by
          rw [hfr2 x (fun h => hleftdisj x h hx)]) hright0
      obtain ⟨m3, hrun3, hright3, hfr3, hval3⟩ :=
        ih m2 (m s1).next post1 hval2 hright2 (by omega)
      have hleft3 : Chain m3 ((mid ++ [s1]).mergeSort (le_ci val)).head?
          ((mid ++ [s1]).mergeSort (le_ci val)) :=
        Chain.frame (fun x hx => by
          rw [hfr3 x (hleftdisj x (List.mem_mergeSort.mp hx))]) hleft2
      obtain ⟨m4, hrun4, hchain4, hfr4, hval4⟩ :=
        q_merge_spec val fuel m3 _ _ _ _ hval3 hleft3 hright3
          (fun x hx hx1 => hleftdisj x (List.mem_mergeSort.mp hx) (List.mem_mergeSort.mp hx1))
          (Or.inl (by
            intro h0
            have := congrArg List.length h0
            simp at this))
          (by simp only [List.length_mergeSort, List.length_append, List.length_cons,
                List.length_nil]; omega)
      have hms := mergeSort_halves (le_ci val) mid s1 post1 (by omega) (by omega)
      rw [hsplit, hms]
      refine ⟨m4, ?_, hchain4, ?_, hval4⟩
      · simp only [q_merge_sort, e2, hrun, hrun2, hrun3]
        exact hrun4
      · intro x hx
        have hx1 : x ∉ mid ++ [s1] := by
          intro h
          apply hx
          rcases List.mem_append.mp h with h | h
          · exact List.mem_append_left _ h
          · exact List.mem_append_right _ (List.mem_cons.mpr (Or.inl (List.mem_singleton.mp h)))
        have hx2 : x ∉ post1 :=
          fun h => hx (List.mem_append_right _ (List.mem_cons_of_mem s1 h))
        have hx3 : x ≠ s1 :=
          fun h => hx (List.mem_append_right _ (h ▸ List.mem_cons_self x post1))
        rw [hfr4 x (fun h => hx1 (List.mem_mergeSort.mp h))
          (fun h => hx2 (List.mem_mergeSort.mp h)), hfr3 x hx2, hfr2 x hx1,
          set_next_other m s1 none x hx3]

theorem q_sort_spec (st : State) (q : queue_t) (as : List Nat) (fuel : Nat)
    (hq : st.q = some q) (hc : Chain st.mem q.head as) (hlen : as.length ≤ fuel) :
    ∃ m1, q_sort fuel st = some
        { mem := m1, live := st.live,
          q := some { head := (as.mergeSort (le_in st)).head?, tail := q.tail,
                      size := q.size } } ∧
      Chain m1 (as.mergeSort (le_in st)).head? (as.mergeSort (le_in st)) ∧
      (∀ x, x ∉ as → m1 x = st.mem x) ∧ (∀ x, (m1 x).value = (st.mem x).value) := by
  cases hh : q.head with
  | none =>
    rw [hh] at hc
    have e : as = [] := by
      cases as with
      | nil => rfl
      | cons a as => cases hc.1
    subst e
    refine ⟨st.mem, ?_, by simp [Chain], fun _ _ => rfl, fun _ => rfl⟩
    obtain ⟨mem, live, sq⟩ := st
    obtain ⟨h, t, n⟩ := q
    simp only at hq hh
    subst hq hh
    simp [q_sort]
  | some h =>
    obtain ⟨m1, hrun, hchain, hfr, hval⟩ :=
      q_merge_sort_spec (fun x => (st.mem x).value) fuel st.mem q.head as (fun _ => rfl) hc hlen
    refine ⟨m1, ?_, hchain, hfr, hval⟩
    simp only [q_sort, hq, hh]
    rw [hh] at hrun
    simp only [hrun]
    rfl

theorem sorted_values (st : State) (m1 : Nat → list_ele_t) (as : List Nat)
    (hval : ∀ x, (m1 x).value = (st.mem x).value) :
    List.Pairwise (fun a b => strcasecmp a b ≤ 0) (values m1 (as.mergeSort (le_in st))) := by
  have h := List.sorted_mergeSort (le_ci_trans fun x => (st.mem x).value)
    (le_ci_total fun x => (st.mem x).value) as
  unfold values
  rw [List.pairwise_map]
  refine List.Pairwise.imp ?_ h
  intro a b hab
  simp only [le_ci, decide_eq_true_eq] at hab
  rw [hval a, hval b]
  exact hab

/-- C1: on every queue whose elements form a chain from `head`, `q_sort` returns
(for any fuel that covers the length) and the values then read from `head` are
non-decreasing under `strcasecmp`: every pair in order, so every adjacent pair,
compares `≤ 0`.  Tail-inserting "banana", "Apple", "cherry" and sorting reads
"Apple", "banana", "cherry". -/
theorem q_sort_nondecreasing :
    (∀ (st : State) (q : queue_t) (as : List Nat) (fuel : Nat),
      st.q = some q → Chain st.mem q.head as → as.length ≤ fuel →
      ∃ st1 q1 as1, q_sort fuel st = some st1 ∧ st1.q = some q1 ∧
        Chain st1.mem q1.head as1 ∧
        List.Pairwise (fun a b => strcasecmp a b ≤ 0) (values st1.mem as1) ∧
        List.Chain' (fun a b => strcasecmp a b ≤ 0) (values st1.mem as1)) ∧
    (∃ st1 q1 as1, q_sort 3 fruit_queue = some st1 ∧ st1.q = some q1 ∧
        Chain st1.mem q1.head as1 ∧
        values st1.mem as1 = [cstr "Apple", cstr "banana", cstr "cherry"]) := by
  constructor
  · intro st q as fuel hq hc hlen
    obtain ⟨m1, hrun, hchain, _, hval⟩ := q_sort_spec st q as fuel hq hc hlen
    have hs := sorted_values st m1 as hval
    exact ⟨_, _, _, hrun, rfl, hchain, hs, List.Pairwise.chain' hs⟩
  · exact ⟨_, _, [2, 1, 3], rfl, rfl, by decide, by decide⟩

theorem q_sort_nondecreasing_witness :
    ∃ st1 q1 as1, q_sort 3 fruit_queue = some st1 ∧ st1.q = some q1 ∧
      Chain st1.mem q1.head as1 ∧
      List.Pairwise (fun a b => strcasecmp a b ≤ 0) (values st1.mem as1) ∧
      List.Chain' (fun a b => strcasecmp a b ≤ 0) (values st1.mem as1) :=
  q_sort_nondecreasing.1 fruit_queue { head := some 1, tail := some 3, size := 3 } [1, 2, 3] 3
    rfl (by decide) (by decide)

/-- C2: `q_sort` only relinks.  On a queue whose elements `as` form a chain from
`head` it returns, the elements then read from `head` are a permutation of `as`
(no element lost, duplicated or created), every list element keeps its value,
cells outside the chain are untouched, no block is allocated or released, the
size field is unchanged, and the values read are a permutation of the values
read before. -/
theorem q_sort_relinks (st : State) (q : queue_t) (as : List Nat) (fuel : Nat)
    (hq : st.q = some q) (hc : Chain st.mem q.head as) (hlen : as.length ≤ fuel) :
    ∃ st1 q1 as1, q_sort fuel st = some st1 ∧ st1.q = some q1 ∧
      Chain st1.mem q1.head as1 ∧ as1.Perm as ∧ as1.Nodup ∧
      (∀ x, (st1.mem x).value = (st.mem x).value) ∧
      (∀ x, x ∉ as → st1.mem x = st.mem x) ∧
      st1.live = st.live ∧ q1.size = q.size ∧
      (values st1.mem as1).Perm (values st.mem as) := by
  obtain ⟨m1, hrun, hchain, hfr, hval⟩ := q_sort_spec st q as fuel hq hc hlen
  have hperm : (as.mergeSort (le_in st)).Perm as := List.mergeSort_perm as (le_in st)
  refine ⟨_, _, _, hrun, rfl, hchain, hperm, Chain.nodup hchain, hval, hfr, rfl, rfl, ?_⟩
  have e : values m1 (as.mergeSort (le_in st)) = values st.mem (as.mergeSort (le_in st)) := by
    unfold values
    exact List.map_congr_left (fun a _ => hval a)
  show (values m1 (as.mergeSort (le_in st))).Perm (values st.mem as)
  rw [e]
  exact List.Perm.map _ hperm

theorem q_sort_relinks_witness :
    ∃ st1 q1 as1, q_sort 3 fruit_queue = some st1 ∧ st1.q = some q1 ∧
      Chain st1.mem q1.head as1 ∧ as1.Perm [1, 2, 3] ∧ as1.Nodup ∧
      (∀ x, (st1.mem x).value = (fruit_queue.mem x).value) ∧
      (∀ x, x ∉ [1, 2, 3] → st1.mem x = fruit_queue.mem x) ∧
      st1.live = fruit_queue.live ∧ q1.size = 3 ∧
      (values st1.mem as1).Perm (values fruit_queue.mem [1, 2, 3]) :=
  q_sort_relinks fruit_queue { head := some 1, tail := some 3, size := 3 } [1, 2, 3] 3
    rfl (by decide) (by decide)

/-! ## Insertion and removal -/

theorem strlen_le_length : ∀ s : List Nat, strlen s ≤ s.length
  | [] => Nat.le_refl 0
  | c :: cs => by
    have := strlen_le_length cs
    unfold strlen
    split
    · exact Nat.zero_le _
    · simp only [List.length_cons]
      omega

/-- The value built by the insert operations is the string at `s` up to its
terminator, followed by a terminator. -/
theorem copied_value (blk s : List Nat) (hblk : blk.length = strlen s + 1) :
    (strncpy blk s (strlen s)).set (strlen s) 0 = s.take (strlen s) ++ [0] := by
  have hle := strlen_le_length s
  have hlen : (s.take (strlen s)).length = strlen s := by
    rw [List.length_take]
    omega
  obtain ⟨x, hx⟩ : ∃ x, blk.drop (strlen s) = [x] := by
    have h1 : (blk.drop (strlen s)).length = 1 := by
      rw [List.length_drop]
      omega
    match hd : blk.drop (strlen s), h1 with
    | [x], _ => exact ⟨x, rfl⟩
  unfold strncpy
  rw [Nat.min_self, Nat.sub_self, hx]
  simp only [List.replicate_zero, List.append_nil]
  rw [List.set_append_right _ _ (by omega), hlen, Nat.sub_self]
  rfl

theorem wrap_int_of_range (x : Int) (h1 : -2147483648 ≤ x) (h2 : x ≤ 2147483647) :
    wrap_int x = x := by
  unfold wrap_int
  omega

theorem int_to_size_of_nat (n : Nat) (h : n < 18446744073709551616) :
    int_to_size (n : Int) = n := by
  unfold int_to_size
  have h1 : (n : Int) % 18446744073709551616 = (n : Int) := by omega
  rw [h1, Int.toNat_ofNat]

/-- For a string shorter than `2 ^ 31` bytes the insert operations store the
string up to its terminator, followed by a terminator. -/
theorem copy_string_short (blk s : List Nat) (hs : (strlen s : Int) ≤ INT_MAX)
    (hblk : blk.length = strlen s + 1) :
    copy_string blk s (wrap_int (strlen s)) = s.take (strlen s) ++ [0] := by
  unfold INT_MAX at hs
  rw [wrap_int_of_range _ (by omega) hs]
  unfold copy_string
  rw [if_pos (by omega), int_to_size_of_nat _ (by omega), Int.toNat_ofNat]
  exact copied_value blk s hblk

theorem values_frame (m m1 : Nat → list_ele_t) (as : List Nat)
    (h : ∀ a ∈ as, (m1 a).value = (m a).value) : values m1 as = values m as := by
  unfold values
  exact List.map_congr_left h

theorem Chain.snoc {m : Nat → list_ele_t} {t n : Nat} :
    ∀ {L : List Nat} {p : Option Nat}, Chain m p L → L.getLast? = some t → n ∉ L →
      (m n).next = none → Chain (set_next m t (some n)) p (L ++ [n])
  | [], _, _, ht, _, _ => by simp at ht
  | [a], _, hc, ht, hn, hnn => by
    have e : a = t := by simpa using ht
    subst e
    have hna : n ≠ a := fun e => hn (e ▸ List.mem_singleton_self n)
    exact ⟨hc.1, by rw [set_next_same], by rw [set_next_other _ _ _ _ hna]; exact hnn⟩
  | a :: b :: rest, _, hc, ht, hn, hnn => by
    have hnd := List.nodup_cons.mp (Chain.nodup hc)
    have ht1 : (b :: rest).getLast? = some t := by
      rw [List.getLast?_cons_cons] at ht
      exact ht
    have hat : a ≠ t := by
      intro e
      apply hnd.1
      rw [e]
      exact List.mem_of_getLast?_eq_some ht1
    refine ⟨hc.1, ?_⟩
    rw [set_next_other _ _ _ _ hat]
    exact Chain.snoc hc.2 ht1 (fun h => hn (List.mem_cons_of_mem a h)) hnn

/-- On a queue whose allocated elements `L` form a chain from `head` that ends
at `tail` (`tail` is `NULL` when `L` is empty), `q_insert_tail` appends: it
returns `true`, the chain from `head` becomes `L ++ [newt]`, `tail` is the new
element and `size` has grown by one (as an `int`).  The string is shorter than
`2 ^ 31` bytes. -/
theorem q_insert_tail_appends (st : State) (q : queue_t) (L : List Nat) (s : List Nat)
    (newt : Nat) (blk : List Nat)
    (hq : st.q = some q) (hc : Chain st.mem q.head L) (htail : q.tail = L.getLast?)
    (hlive : ∀ a ∈ L, st.live a = true) (hfresh : st.live newt = false)
    (hs : (strlen s : Int) ≤ INT_MAX) (hblk : blk.length = strlen s + 1) :
    (q_insert_tail st (some s) (some newt) (some blk)).2 = true ∧
    ∃ q1, (q_insert_tail st (some s) (some newt) (some blk)).1.q = some q1 ∧
      Chain (q_insert_tail st (some s) (some newt) (some blk)).1.mem q1.head (L ++ [newt]) ∧
      values (q_insert_tail st (some s) (some newt) (some blk)).1.mem (L ++ [newt]) =
        values st.mem L ++ [s.take (strlen s) ++ [0]] ∧
      q1.tail = some newt ∧ q1.size = wrap_int (q.size + 1) := by
  have hnew : newt ∉ L := by
    intro h
    have := hlive newt h
    rw [hfresh] at this
    cases this
  have hval := copy_string_short blk s hs hblk
  have hvals : ∀ (m : Nat → list_ele_t), (∀ x, x ≠ newt → (m x).value = (st.mem x).value) →
      (m newt).value = s.take (strlen s) ++ [0] →
      values m (L ++ [newt]) = values st.mem L ++ [s.take (strlen s) ++ [0]] := by
    intro m h1 h2
    unfold values
    rw [List.map_append, List.map_congr_left (fun a ha => h1 a (fun e => hnew (e ▸ ha)))]
    simp [h2]
  cases ht : q.tail with
  | none =>
    have e : L = [] := by
      rw [ht] at htail
      cases L with
      | nil => rfl
      | cons a as => exact absurd htail.symm (by simp)
    subst e
    simp only [q_insert_tail, hq, ht, hval]
    refine ⟨trivial, _, rfl, ⟨rfl, set_next_same _ _ _⟩, ?_, rfl, rfl⟩
    exact hvals _ (fun x hx => by simp [set_next, set_value, hx]) (by simp [set_next, set_value])
  | some t =>
    rw [ht] at htail
    simp only [q_insert_tail, hq, ht, hval]
    have hc1 : Chain (set_next (set_value st.mem newt (s.take (strlen s) ++ [0])) newt none)
        q.head L :=
      Chain.frame (fun a ha => by
        have hne : a ≠ newt := fun e => hnew (e ▸ ha)
        simp [set_next, set_value, hne]) hc
    have ht_mem : t ∈ L := List.mem_of_getLast?_eq_some htail.symm
    have htn : newt ≠ t := fun e => hnew (e ▸ ht_mem)
    refine ⟨trivial, _, rfl, Chain.snoc hc1 htail.symm hnew (set_next_same _ _ _), ?_, rfl, rfl⟩
    exact hvals _ (fun x hx => by
        rw [set_next_value, set_next_value]
        simp [set_value, hx])
      (by
        rw [set_next_value, set_next_value]
        simp [set_value])

/-- C3 (evaluation of the code where the claim fails): in the queue emptied by
`q_remove_head` the field `tail` still holds the released element `1` while
`head` is `NULL`; a following `q_insert_tail`, wherever its element is
allocated, returns `true` and counts the element, but takes the branch that
links after `tail`, so `head` stays `NULL` and the queue read from `head` is
empty instead of holding the inserted string. -/
theorem q_insert_tail_after_emptying (newt : Nat) (s blk : List Nat) :
    (∃ q0, emptied_queue.q = some q0 ∧ q0.head = none ∧ q0.tail = some 1 ∧ q0.size = 0 ∧
      emptied_queue.live 1 = false) ∧
    (q_insert_tail emptied_queue (some s) (some newt) (some blk)).2 = true ∧
    ∃ q1, (q_insert_tail emptied_queue (some s) (some newt) (some blk)).1.q = some q1 ∧
      q1.head = none ∧ q1.tail = some newt ∧ q1.size = 1 ∧
      Chain (q_insert_tail emptied_queue (some s) (some newt) (some blk)).1.mem q1.head [] ∧
      ¬ Chain (q_insert_tail emptied_queue (some s) (some newt) (some blk)).1.mem q1.head
          [newt] :=
  ⟨⟨_, rfl, rfl, rfl, rfl, rfl⟩, rfl, _, rfl, rfl, rfl, rfl, rfl, fun h => by cases h.1⟩

theorem strlen_replicate (c : Nat) (hc : c ≠ 0) :
    ∀ n : Nat, strlen (List.replicate n c ++ [0]) = n
  | 0 => rfl
  | n + 1 => by
    rw [List.replicate_succ, List.cons_append, strlen, if_neg hc, strlen_replicate c hc n]

theorem copy_string_long (n : Nat) (hn : wrap_int ((n + 1 : Nat) : Int) = 1) :
    copy_string [85, 85] (List.replicate (n + 1) 97 ++ [0])
      (wrap_int (strlen (List.replicate (n + 1) 97 ++ [0]) : Nat)) = [97, 0] := by
  rw [strlen_replicate 97 (by decide), hn]
  have h1 : int_to_size 1 = 1 := by decide
  unfold copy_string
  rw [if_pos (by decide), h1]
  unfold strncpy
  rw [strlen_replicate 97 (by decide)]
  have h2 : min (n + 1) 1 = 1 := by omega
  have h3 : 1 - (n + 1) = 0 := by omega
  rw [h2, h3, List.replicate_succ]
  rfl

theorem q_insert_head_value (st : State) (q : queue_t) (s : List Nat) (newh : Nat)
    (blk : List Nat) (hq : st.q = some q) :
    ((q_insert_head st (some s) (some newh) (some blk)).1.mem newh).value =
      copy_string blk s (wrap_int (strlen s)) := by
  cases hh : q.head <;> simp [q_insert_head, hq, hh, set_next, set_value]

theorem q_insert_head_run (st : State) (q : queue_t) (s : List Nat) (newh : Nat)
    (blk : List Nat) (hq : st.q = some q) :
    ∃ t, q_insert_head st (some s) (some newh) (some blk) =
      ({ mem := set_next (set_value st.mem newh (copy_string blk s (wrap_int (strlen s))))
                  newh q.head,
         live := set_live st.live newh true,
         q := some { head := some newh, tail := t, size := wrap_int (q.size + 1) } }, true) := by
  cases hh : q.head with
  | none => exact ⟨some newh, by simp only [q_insert_head, hq, hh]⟩
  | some h => exact ⟨q.tail, by simp only [q_insert_head, hq, hh]⟩

theorem long_heap_chain : ∀ n k : Nat, k + (n + 1) = 2147483647 →
    Chain long_heap (some k) (List.range' k (n + 1))
  | 0, k, h => by
    refine ⟨rfl, ?_⟩
    have hk : ¬ k + 1 < 2147483647 := by omega
    show (if k + 1 < 2147483647 then some (k + 1) else none) = none
    rw [if_neg hk]
  | n + 1, k, h => by
    refine ⟨rfl, ?_⟩
    have hk : k + 1 < 2147483647 := by omega
    have hnext : (long_heap k).next = some (k + 1) := by
      show (if k + 1 < 2147483647 then some (k + 1) else none) = some (k + 1)
      rw [if_pos hk]
    rw [hnext]
    exact long_heap_chain n (k + 1) (by omega)

/-- C4 (as stated, refuted).  A string of `2 ^ 32 + 1` bytes inserted at the head
of a new queue: `value_size`, an `int`, is `1`, the call returns `true` and the
stored value is one byte and a terminator, not a copy of the string.  And on
the well-formed queue of `INT_MAX` elements a successful `q_insert_head` leaves
the size field at `-2147483648`, not at `INT_MAX + 1`. -/
theorem q_insert_head_truncates :
    (strlen long_string = 4294967296 + 1 ∧
      (q_insert_head (q_new mem0 live0 true) (some long_string) (some 1) (some [85, 85])).2 =
        true ∧
      ((q_insert_head (q_new mem0 live0 true) (some long_string) (some 1)
        (some [85, 85])).1.mem 1).value = [97, 0] ∧
      strlen [97, 0] ≠ strlen long_string) ∧
    (Chain full_queue.mem (some 0) (List.range' 0 2147483647) ∧
      (∀ a ∈ List.range' 0 2147483647, full_queue.live a = true) ∧
      full_queue.live 2147483647 = false ∧
      (q_insert_head full_queue (some [0]) (some 2147483647) (some [0])).2 = true ∧
      ∃ q0 q1, full_queue.q = some q0 ∧ q0.size = 2147483647 ∧
        (q_insert_head full_queue (some [0]) (some 2147483647) (some [0])).1.q = some q1 ∧
        q1.size = -2147483648 ∧ q1.size ≠ q0.size + 1) := by
  have hlen : strlen long_string = 4294967296 + 1 := strlen_replicate 97 (by decide) _
  have hval : ((q_insert_head (q_new mem0 live0 true) (some long_string) (some 1)
      (some [85, 85])).1.mem 1).value = [97, 0] := by
    rw [q_insert_head_value (q_new mem0 live0 true) _ long_string 1 [85, 85] rfl]
    exact copy_string_long 4294967296 (by decide)
  refine ⟨⟨hlen, rfl, hval, ?_⟩, long_heap_chain 2147483646 0 rfl, ?_, by decide, rfl,
    _, _, rfl, rfl, rfl, by decide, by decide⟩
  · rw [hlen]
    decide
  · intro a ha
    have h := (List.mem_range'_1.mp ha).2
    show decide (a < 2147483647) = true
    exact decide_eq_true (by omega)

/-- C4 (amended): on a queue of fewer than `INT_MAX` elements whose allocated
elements `L` form a chain from `head`, `q_insert_head` with a string `s` of at
most `INT_MAX` bytes, a fresh element `newh` and a block of `strlen s + 1` bytes
returns `true`; the chain from `head` is then `newh :: L`, the values read are
the copy of `s` (its bytes up to the terminator, then a terminator, so of the
same length) followed by the previous values, `size` has grown by one, `tail`
is unchanged when `L` is not empty, and `head` and `tail` are both the new
element when `L` is empty.  Head-inserting "a", "b", "c" into a new queue reads
"c", "b", "a" with size 3. -/
theorem q_insert_head_spec :
    (∀ (st : State) (q : queue_t) (L : List Nat) (s : List Nat) (newh : Nat)
      (blk : List Nat),
      st.q = some q → Chain st.mem q.head L → (∀ a ∈ L, st.live a = true) →
      st.live newh = false → blk.length = strlen s + 1 →
      (strlen s : Int) ≤ INT_MAX → 0 ≤ q.size → q.size < INT_MAX →
      (q_insert_head st (some s) (some newh) (some blk)).2 = true ∧
      ∃ q1, (q_insert_head st (some s) (some newh) (some blk)).1.q = some q1 ∧
        q1.head = some newh ∧
        Chain (q_insert_head st (some s) (some newh) (some blk)).1.mem q1.head (newh :: L) ∧
        values (q_insert_head st (some s) (some newh) (some blk)).1.mem (newh :: L) =
          (s.take (strlen s) ++ [0]) :: values st.mem L ∧
        strlen (s.take (strlen s) ++ [0]) = strlen s ∧
        q1.size = q.size + 1 ∧
        (L ≠ [] → q1.tail = q.tail) ∧
        (L = [] → q1.tail = some newh)) ∧
    (∃ q1, abc_queue.q = some q1 ∧ Chain abc_queue.mem q1.head [3, 2, 1] ∧
      values abc_queue.mem [3, 2, 1] = [cstr "c", cstr "b", cstr "a"] ∧ q_size abc_queue = 3) := by
  constructor
  · intro st q L s newh blk hq hc hlive hfresh hblk hs h0 hmax
    have hnew : newh ∉ L := by
      intro h
      have := hlive newh h
      rw [hfresh] at this
      cases this
    have hval := copy_string_short blk s hs hblk
    have hsz : wrap_int (q.size + 1) = q.size + 1 := by
      unfold INT_MAX at hmax
      exact wrap_int_of_range _ (by omega) (by omega)
    have hstr : strlen (s.take (strlen s) ++ [0]) = strlen s := by
      clear hval hblk hs
      induction s with
      | nil => rfl
      | cons c cs ih =>
        by_cases h0 : c = 0
        · simp [strlen, h0]
        · simp only [strlen, h0, if_false, List.take_succ_cons, List.cons_append]
          rw [ih]
    cases hh : q.head with
    | none =>
      rw [hh] at hc
      have e : L = [] := by
        cases L with
        | nil => rfl
        | cons a as => cases hc.1
      subst e
      simp only [q_insert_head, hq, hh, hval]
      refine ⟨trivial, _, rfl, rfl, ⟨rfl, set_next_same _ _ _⟩, ?_, hstr, hsz,
        fun h => absurd rfl h, fun _ => rfl⟩
      simp [values, set_next, set_value]
    | some h =>
      rw [hh] at hc
      simp only [q_insert_head, hq, hh, hval]
      have hL : L ≠ [] := by
        intro e
        subst e
        cases hc
      refine ⟨trivial, _, rfl, rfl, ⟨rfl, ?_⟩, ?_, hstr, hsz, fun _ => rfl, fun e => absurd e hL⟩
      · rw [set_next_same]
        refine Chain.frame (fun a ha => ?_) hc
        have hne : a ≠ newh := fun e => hnew (e ▸ ha)
        simp [set_next, set_value, hne]
      · have : ∀ a ∈ L, ((set_next (set_value st.mem newh (s.take (strlen s) ++ [0])) newh
            (some h)) a).value = (st.mem a).value := by
          intro a ha
          have hne : a ≠ newh := fun e => hnew (e ▸ ha)
          simp [set_next, set_value, hne]
        show _ :: values _ L = _
        rw [values_frame _ _ L this]
        simp [set_next, set_value]
  · exact ⟨_, rfl, by decide, by decide, rfl⟩

theorem q_insert_head_spec_witness :
    (q_insert_head abc_queue (some (cstr "d")) (some 4) (some [85, 85])).2 = true ∧
      ∃ q1, (q_insert_head abc_queue (some (cstr "d")) (some 4) (some [85, 85])).1.q = some q1 ∧
        q1.head = some 4 ∧
        Chain (q_insert_head abc_queue (some (cstr "d")) (some 4) (some [85, 85])).1.mem q1.head
          [4, 3, 2, 1] ∧
        values (q_insert_head abc_queue (some (cstr "d")) (some 4) (some [85, 85])).1.mem
            [4, 3, 2, 1] =
          ((cstr "d").take (strlen (cstr "d")) ++ [0]) :: values abc_queue.mem [3, 2, 1] ∧
        strlen ((cstr "d").take (strlen (cstr "d")) ++ [0]) = strlen (cstr "d") ∧
        q1.size = 3 + 1 ∧
        ([3, 2, 1] ≠ [] → q1.tail = some 1) ∧
        ([3, 2, 1] = [] → q1.tail = some 4) :=
  q_insert_head_spec.1 abc_queue { head := some 3, tail := some 1, size := 3 } [3, 2, 1]
    (cstr "d") 4 [85, 85] rfl (by decide) (by decide) rfl (by decide) (by decide) (by decide)
    (by decide)

/-- The call `q_remove_head` on a queue with a head element returns `true` when
no buffer is supplied or the capacity is at least `1`. -/
theorem q_remove_head_run (st : State) (q : queue_t) (v : Nat) (sp : Option (List Nat))
    (bufsize : Nat) (hq : st.q = some q) (hh : q.head = some v)
    (hbuf : sp = none ∨ (1 ≤ bufsize ∧ bufsize < 2 ^ SIZE_WIDTH)) :
    q_remove_head st sp bufsize =
      ({ mem := st.mem,
         live := set_live st.live v false,
         q := some { head := (st.mem v).next, tail := q.tail, size := wrap_int (q.size - 1) } },
       sp.map (fun buf => strncpy (memset buf 0 bufsize) (st.mem v).value
         ((bufsize + 2 ^ SIZE_WIDTH - 1) % 2 ^ SIZE_WIDTH)),
       some true) := by
  have hcond : ¬ (sp.isSome ∧ bufsize ≤ (bufsize + 2 ^ SIZE_WIDTH - 1) % 2 ^ SIZE_WIDTH) := by
    rintro ⟨h1, h2⟩
    rcases hbuf with h | ⟨h3, h4⟩
    · rw [h] at h1
      cases h1
    · simp only [SIZE_WIDTH] at h2 h4
      omega
  simp only [q_remove_head, hq, hh, if_neg hcond]

/-- C6: when the head element holds the value `val` and a buffer is supplied with
a capacity `c ≥ 1` (a `size_t`), after `q_remove_head` the first `c` bytes of
the buffer are the first `min (strlen val) (c - 1)` bytes of `val` followed by
zero bytes only, whatever the buffer held before, and the bytes after the
capacity are untouched.  Removing "xy" with capacity 2 leaves "x" and a
terminator in the buffer and the queue empty. -/
theorem q_remove_head_buffer :
    (∀ (st : State) (q : queue_t) (a : Nat) (buf : List Nat) (c : Nat),
      st.q = some q → q.head = some a → 1 ≤ c → c < 2 ^ SIZE_WIDTH →
      ∃ out, (q_remove_head st (some buf) c).2.1 = some out ∧
        out.take c = (st.mem a).value.take (min (strlen (st.mem a).value) (c - 1)) ++
          List.replicate (c - min (strlen (st.mem a).value) (c - 1)) 0 ∧
        out.drop c = buf.drop c) ∧
    ((q_remove_head xy_queue (some [85, 85]) 2).2.1 = some [120, 0] ∧
      [120, 0] = cstr "x" ∧
      ∃ q1, (q_remove_head xy_queue (some [85, 85]) 2).1.q = some q1 ∧
        Chain (q_remove_head xy_queue (some [85, 85]) 2).1.mem q1.head [] ∧ q1.size = 0) := by
  constructor
  · intro st q a buf c hq hh hc1 hc2
    have hmod : (c + 2 ^ SIZE_WIDTH - 1) % 2 ^ SIZE_WIDTH = c - 1 := by
      simp only [SIZE_WIDTH] at hc2 ⊢
      omega
    rw [q_remove_head_run st q a (some buf) c hq hh (Or.inr ⟨hc1, hc2⟩)]
    simp only [Option.map_some', hmod]
    refine ⟨_, rfl, ?_, ?_⟩
    all_goals
      generalize (st.mem a).value = val
      have hle := strlen_le_length val
      have hdrop : (memset buf 0 c).drop (c - 1) = 0 :: buf.drop c := by
        unfold memset
        rw [List.drop_append_of_le_length (by simp), List.drop_replicate]
        have : c - (c - 1) = 1 := by omega
        rw [this]
        rfl
      have hlen : (val.take (min (strlen val) (c - 1)) ++
          List.replicate (c - 1 - strlen val) 0 ++ [0]).length = c := by
        simp only [List.length_append, List.length_take, List.length_replicate,
          List.length_cons, List.length_nil]
        omega
      have hout : strncpy (memset buf 0 c) val (c - 1) =
          (val.take (min (strlen val) (c - 1)) ++ List.replicate (c - 1 - strlen val) 0 ++ [0])
            ++ buf.drop c := by
        unfold strncpy
        rw [hdrop]
        simp
      rw [hout]
    · have hn : c - min (strlen val) (c - 1) = (c - 1 - strlen val) + 1 := by omega
      rw [List.take_left' hlen, List.append_assoc, hn, List.replicate_succ']
    · rw [List.drop_left' hlen]
  · exact ⟨by decide, by decide, _, rfl, rfl, rfl⟩

theorem q_remove_head_buffer_witness :
    ∃ out, (q_remove_head xy_queue (some [85, 85, 85, 85, 85]) 4).2.1 = some out ∧
      out.take 4 = (xy_queue.mem 1).value.take (min (strlen (xy_queue.mem 1).value) (4 - 1)) ++
        List.replicate (4 - min (strlen (xy_queue.mem 1).value) (4 - 1)) 0 ∧
      out.drop 4 = [85, 85, 85, 85, 85].drop 4 :=
  q_remove_head_buffer.1 xy_queue { head := some 1, tail := some 1, size := 1 } 1
    [85, 85, 85, 85, 85] 4 rfl rfl (by decide) (by simp [SIZE_WIDTH])

/-! ## Reversal -/

theorem q_reverse_loop_stop (fuel : Nat) (m : Nat → list_ele_t) (p : Nat) :
    q_reverse_loop fuel m p none = some (m, p) := by
  cases fuel <;> rfl

/-- Invariant of the loop of `q_reverse`, read on the heap in which the `next`
field of the first element `h0` is already cleared: the elements done so far
form a chain from `p`, the remaining ones a chain from `c`. -/
theorem q_reverse_loop_spec (h0 : Nat) :
    ∀ (fuel : Nat) (todo done : List Nat) (m : Nat → list_ele_t) (p : Nat) (c : Option Nat),
      Chain m c todo → Chain (set_next m h0 none) (some p) done →
      (∀ x ∈ todo, x ∉ done) → h0 ∉ todo → todo.length ≤ fuel →
      ∃ m1 p1, q_reverse_loop fuel m p c = some (m1, p1) ∧
        Chain (set_next m1 h0 none) (some p1) (todo.reverse ++ done) ∧
        (∀ x, x ∉ todo → m1 x = m x) ∧ (∀ x, (m1 x).value = (m x).value) := by
  intro fuel
  induction fuel with
  | zero =>
    intro todo done m p c hc hd _ _ hlen
    have e : todo = [] := List.length_eq_zero.mp (Nat.le_zero.mp hlen)
    subst e
    have e1 : c = none := hc
    subst e1
    exact ⟨m, p, rfl, hd, fun _ _ => rfl, fun _ => rfl⟩
  | succ fuel ih =>
    intro todo done m p c hc hd hdisj hh0 hlen
    cases todo with
    | nil =>
      have e1 : c = none := hc
      subst e1
      exact ⟨m, p, rfl, hd, fun _ _ => rfl, fun _ => rfl⟩
    | cons x todo =>
      have e1 : c = some x := hc.1
      subst e1
      have hnd := List.nodup_cons.mp (Chain.nodup hc)
      have hx0 : x ≠ h0 := fun e => hh0 (e ▸ List.mem_cons_self x todo)
      have hxd : x ∉ done := hdisj x (List.mem_cons_self x todo)
      have hc1 : Chain (set_next m x (some p)) (m x).next todo :=
        Chain.frame (fun a ha => by
          rw [set_next_other m x _ a (fun e => hnd.1 (e ▸ ha))]) hc.2
      have hd1 : Chain (set_next (set_next m x (some p)) h0 none) (some x) (x :: done) := by
        refine ⟨rfl, ?_⟩
        rw [set_next_other _ h0 none x hx0, set_next_same]
        refine Chain.frame (fun a ha => ?_) hd
        have hax : a ≠ x := fun e => hxd (e ▸ ha)
        by_cases ha0 : a = h0
        · subst ha0
          rw [set_next_same, set_next_same]
        · rw [set_next_other _ h0 none a ha0, set_next_other _ h0 none a ha0,
            set_next_other m x _ a hax]
      obtain ⟨m1, p1, hrun, hchain, hfr, hval⟩ :=
        ih todo (x :: done) (set_next m x (some p)) x (m x).next hc1 hd1
          (fun a ha ha1 => by
            rcases List.mem_cons.mp ha1 with h | h
            · exact hnd.1 (h ▸ ha)
            · exact hdisj a (List.mem_cons_of_mem x ha) h)
          (fun h => hh0 (List.mem_cons_of_mem x h))
          (by simp only [List.length_cons] at hlen; omega)
      refine ⟨m1, p1, hrun, ?_, ?_, ?_⟩
      · simpa using hchain
      · intro a ha
        rw [hfr a (fun h => ha (List.mem_cons_of_mem x h)),
          set_next_other m x _ a (fun e => ha (e ▸ List.mem_cons_self a todo))]
      · intro a
        rw [hval a, set_next_value]

/-- C7: on a queue whose elements `as` form a non-empty chain from `head` to
`tail`, `q_reverse` returns; the chain read from `head` is then `as` reversed,
the new `head` is the old `tail`, the new `tail` is the old `head` and its
`next` is `NULL`, the size field, the values and the set of allocated blocks
are unchanged.  On an absent queue and on an empty queue `q_reverse`
changes nothing. -/
theorem q_reverse_spec :
    (∀ (st : State) (q : queue_t) (as : List Nat) (fuel : Nat),
      st.q = some q → Chain st.mem q.head as → as ≠ [] → q.tail = as.getLast? →
      as.length ≤ fuel →
      ∃ st1 q1, q_reverse fuel st = some st1 ∧ st1.q = some q1 ∧
        Chain st1.mem q1.head as.reverse ∧
        q1.head = q.tail ∧ q1.tail = q.head ∧
        (∀ a, q1.tail = some a → (st1.mem a).next = none) ∧
        q1.size = q.size ∧ st1.live = st.live ∧
        (∀ x, (st1.mem x).value = (st.mem x).value) ∧
        (∀ x, x ∉ as → st1.mem x = st.mem x)) ∧
    (∀ (fuel : Nat) (st : State), st.q = none → q_reverse fuel st = some st) ∧
    (∀ (fuel : Nat) (st : State) (q : queue_t), st.q = some q → q.head = none →
      q_reverse fuel st = some st) := by
  refine ⟨?_, ?_, ?_⟩
  · intro st q as fuel hq hc hne htail hlen
    match as, hc, hne, htail, hlen with
    | h0 :: rest, hc, _, htail, hlen =>
      have hh : q.head = some h0 := hc.1
      have hnd := List.nodup_cons.mp (Chain.nodup hc)
      obtain ⟨m1, p1, hrun, hchain, hfr, hval⟩ :=
        q_reverse_loop_spec h0 fuel rest [h0] st.mem h0 (st.mem h0).next hc.2
          ⟨rfl, set_next_same _ _ _⟩
          (fun x hx hx1 => hnd.1 ((List.mem_singleton.mp hx1) ▸ hx)) hnd.1
          (by simp only [List.length_cons] at hlen; omega)
      have hrev : rest.reverse ++ [h0] = (h0 :: rest).reverse := by simp
      rw [hrev] at hchain
      have hp1 : some p1 = q.tail := by
        rw [htail, Chain.head_eq hchain, List.head?_reverse]
      refine ⟨{ mem := set_next m1 h0 none, live := st.live,
                q := some { head := some p1, tail := some h0, size := q.size } }, _, ?_, rfl,
        hchain, hp1, hh.symm, ?_, rfl, rfl, ?_, ?_⟩
      · simp only [q_reverse, hq, hh, hrun]
      · intro a ha
        cases ha
        exact set_next_same _ _ _
      · intro x
        show (set_next m1 h0 none x).value = _
        rw [set_next_value, hval]
      · intro x hx
        show set_next m1 h0 none x = _
        rw [set_next_other _ _ _ _ (fun e => hx (by rw [e]; exact List.mem_cons_self h0 rest)),
          hfr x (fun h => hx (List.mem_cons_of_mem h0 h))]
  · intro fuel st hq
    simp only [q_reverse, hq]
  · intro fuel st q hq hh
    simp only [q_reverse, hq, hh]

theorem q_reverse_spec_witness :
    ∃ st1 q1, q_reverse 3 abc_queue = some st1 ∧ st1.q = some q1 ∧
      Chain st1.mem q1.head [3, 2, 1].reverse ∧
      q1.head = some 1 ∧ q1.tail = some 3 ∧
      (∀ a, q1.tail = some a → (st1.mem a).next = none) ∧
      q1.size = 3 ∧ st1.live = abc_queue.live ∧
      (∀ x, (st1.mem x).value = (abc_queue.mem x).value) ∧
      (∀ x, x ∉ [3, 2, 1] → st1.mem x = abc_queue.mem x) :=
  q_reverse_spec.1 abc_queue { head := some 3, tail := some 1, size := 3 } [3, 2, 1] 3
    rfl (by decide) (by decide) rfl (by decide)

/-! ## Sequences of calls -/

theorem wrap_int_idem (x : Int) : wrap_int (wrap_int x) = wrap_int x := by
  unfold wrap_int
  omega

theorem wrap_int_add (a b : Int) : wrap_int (wrap_int a + b) = wrap_int (a + b) := by
  unfold wrap_int
  omega

theorem q_size_call (st : State) (c : Call) (hr : wrap_int (q_size st) = q_size st) :
    q_size (call st c).1 = wrap_int (q_size st + counted st c) := by
  obtain ⟨mem, live, sq⟩ := st
  cases sq with
  | none =>
    cases c <;> simp [call, counted, q_insert_head, q_insert_tail, q_remove_head, q_size] <;>
      decide
  | some q =>
    have hq : wrap_int q.size = q.size := hr
    have h0 : q.size = wrap_int (q.size + 0) := by rw [Int.add_zero, hq]
    cases c with
    | insert_head s newh value_new =>
      cases s <;> cases newh <;> cases value_new <;> cases hh : q.head <;>
        simp [call, counted, q_insert_head, q_size, hh] <;> exact hq.symm
    | insert_tail s newt value_new =>
      cases s <;> cases newt <;> cases value_new <;> cases hh : q.tail <;>
        simp [call, counted, q_insert_tail, q_size, hh] <;> exact hq.symm
    | remove_head sp bufsize =>
      cases hh : q.head with
      | none =>
        simp [call, counted, q_remove_head, q_size, hh]
        exact hq.symm
      | some v =>
        by_cases hcond : sp.isSome ∧ bufsize ≤ (bufsize + 2 ^ SIZE_WIDTH - 1) % 2 ^ SIZE_WIDTH
        · simp only [call, counted, q_remove_head, hh, if_pos hcond, q_size]
          simp only [reduceCtorEq, if_false]
          exact h0
        · simp only [call, counted, q_remove_head, hh, if_neg hcond, q_size, if_true]
          rfl

theorem q_size_call_range (st : State) (c : Call) (hr : wrap_int (q_size st) = q_size st) :
    wrap_int (q_size (call st c).1) = q_size (call st c).1 := by
  rw [q_size_call st c hr, wrap_int_idem]

theorem q_size_run (cs : List Call) :
    ∀ st : State, wrap_int (q_size st) = q_size st →
      q_size (run st cs) = wrap_int (q_size st + net_inserted st cs) := by
  induction cs with
  | nil =>
    intro st hr
    simp only [run, net_inserted, Int.add_zero]
    exact hr.symm
  | cons c cs ih =>
    intro st hr
    have hstep := q_size_call st c hr
    cases hret : (call st c).2 with
    | none =>
      simp only [run, net_inserted, hret, Int.add_zero]
      have hcount : counted st c = 0 := by
        cases c with
        | insert_head s newh value_new => simp [call] at hret
        | insert_tail s newt value_new => simp [call] at hret
        | remove_head sp bufsize =>
          simp only [call] at hret
          simp [counted, hret]
      rw [hstep, hcount, Int.add_zero]
    | some r =>
      simp only [run, net_inserted, hret]
      rw [ih (call st c).1 (q_size_call_range st c hr), hstep, wrap_int_add, Int.add_assoc]

theorem q_new_size_range (mem : Nat → list_ele_t) (live : Nat → Bool) (alloc : Bool) :
    wrap_int (q_size (q_new mem live alloc)) = q_size (q_new mem live alloc) ∧
    q_size (q_new mem live alloc) = 0 := by
  cases alloc <;> exact ⟨rfl, rfl⟩

/-- Inserts at the head with a queue, a string and successful allocations all
return `true`, so each of them counts. -/
theorem net_inserted_all (cs : List Call) :
    ∀ st : State, st.q ≠ none →
      (∀ c ∈ cs, ∃ s a b, c = Call.insert_head (some s) (some a) (some b)) →
      net_inserted st cs = cs.length := by
  induction cs with
  | nil =>
    intro st _ _
    rfl
  | cons c cs ih =>
    intro st hq hall
    obtain ⟨s, a, b, hc⟩ := hall c (List.mem_cons_self c cs)
    subst hc
    obtain ⟨q, hq1⟩ := Option.ne_none_iff_exists'.mp hq
    obtain ⟨t, hrun⟩ := q_insert_head_run st q s a b hq1
    have hnext := ih (q_insert_head st (some s) (some a) (some b)).1
      (by rw [hrun]; simp) (fun c hc => hall c (List.mem_cons_of_mem _ hc))
    simp only [net_inserted, call, counted]
    rw [hnext, hrun]
    simp only [if_true, List.length_cons, Nat.cast_add, Nat.cast_one]
    omega

/-- C8 (as stated, refuted): `2 ^ 31` calls of `q_insert_head` on a new queue, each
with a fresh element and the empty string, all return `true`; the count of
successful inserts is `2147483648` and `q_size` is `-2147483648`. -/
theorem q_size_overflows :
    net_inserted (q_new mem0 live0 true) many_inserts = 2147483648 ∧
    q_size (run (q_new mem0 live0 true) many_inserts) = -2147483648 ∧
    q_size (run (q_new mem0 live0 true) many_inserts) ≠
      net_inserted (q_new mem0 live0 true) many_inserts := by
  have hlen : many_inserts.length = 2147483648 := by
    unfold many_inserts
    rw [List.length_map, List.length_range]
  have hnet : net_inserted (q_new mem0 live0 true) many_inserts = 2147483648 := by
    rw [net_inserted_all many_inserts (q_new mem0 live0 true) (by simp [q_new])
      (by
        intro c hc
        unfold many_inserts at hc
        obtain ⟨i, _, hi⟩ := List.mem_map.mp hc
        exact ⟨_, _, _, hi.symm⟩), hlen]
    rfl
  have hsize : q_size (run (q_new mem0 live0 true) many_inserts) = -2147483648 := by
    rw [q_size_run many_inserts _ (q_new_size_range mem0 live0 true).1, hnet,
      (q_new_size_range mem0 live0 true).2]
    decide
  refine ⟨hnet, hsize, ?_⟩
  rw [hnet, hsize]
  decide

/-- C8 (amended): whatever calls of `q_insert_head`, `q_insert_tail` and
`q_remove_head` are applied to the result of `q_new`, and whatever the
allocations do, after each call (after the first `n` calls, for every `n`,
up to a call that does not return) `q_size` is the number of inserts that
returned true minus the number of removes that returned true, reduced to the
range of `int`; it is that number itself whenever the number lies in the range
of `int`; `q_size` of an absent queue is `0`. -/
theorem q_size_counts :
    (∀ (mem : Nat → list_ele_t) (live : Nat → Bool) (alloc : Bool) (cs : List Call) (n : Nat),
      q_size (run (q_new mem live alloc) (cs.take n)) =
        wrap_int (net_inserted (q_new mem live alloc) (cs.take n))) ∧
    (∀ (mem : Nat → list_ele_t) (live : Nat → Bool) (alloc : Bool) (cs : List Call) (n : Nat),
      -2147483648 ≤ net_inserted (q_new mem live alloc) (cs.take n) →
      net_inserted (q_new mem live alloc) (cs.take n) ≤ INT_MAX →
      q_size (run (q_new mem live alloc) (cs.take n)) =
        net_inserted (q_new mem live alloc) (cs.take n)) ∧
    (∀ (mem : Nat → list_ele_t) (live : Nat → Bool),
      q_size { mem := mem, live := live, q := none } = 0) := by
  have key : ∀ (mem : Nat → list_ele_t) (live : Nat → Bool) (alloc : Bool) (cs : List Call),
      q_size (run (q_new mem live alloc) cs) =
        wrap_int (net_inserted (q_new mem live alloc) cs) := by
    intro mem live alloc cs
    rw [q_size_run cs _ (q_new_size_range mem live alloc).1,
      (q_new_size_range mem live alloc).2, Int.zero_add]
  refine ⟨fun mem live alloc cs n => key mem live alloc _, ?_, fun _ _ => rfl⟩
  intro mem live alloc cs n hlo hhi
  unfold INT_MAX at hhi
  rw [key, wrap_int_of_range _ hlo hhi]

theorem q_size_counts_witness :
    q_size (run (q_new mem0 live0 true)
        ([Call.insert_tail (some (cstr "a")) (some 1) (some [85, 85]),
          Call.insert_head (some (cstr "b")) (some 2) (some [85, 85]),
          Call.remove_head (some [85, 85]) 2,
          Call.remove_head none 0,
          Call.remove_head none 0].take 4)) =
      net_inserted (q_new mem0 live0 true)
        ([Call.insert_tail (some (cstr "a")) (some 1) (some [85, 85]),
          Call.insert_head (some (cstr "b")) (some 2) (some [85, 85]),
          Call.remove_head (some [85, 85]) 2,
          Call.remove_head none 0,
          Call.remove_head none 0].take 4) :=
  q_size_counts.2.1 mem0 live0 true _ 4 (by decide) (by decide)

/-- C9 (evaluation of the code where the claim fails): after `q_new()`,
`q_insert_head(q, "a")` and `q_remove_head(q, NULL, 0)` the size field is `0` and
`head` is `NULL`, but `tail` still holds the address of the released element;
after one more `q_insert_tail(q, "b")` the size field is `1` while `head` is
still `NULL`. -/
theorem q_remove_head_keeps_tail :
    (∃ q1, (run (q_new mem0 live0 true)
        [Call.insert_head (some (cstr "a")) (some 1) (some [85, 85]),
         Call.remove_head none 0]).q = some q1 ∧
      q1.size = 0 ∧ q1.head = none ∧ q1.tail = some 1 ∧
      (run (q_new mem0 live0 true)
        [Call.insert_head (some (cstr "a")) (some 1) (some [85, 85]),
         Call.remove_head none 0]).live 1 = false) ∧
    (∃ q2, (run (q_new mem0 live0 true)
        [Call.insert_head (some (cstr "a")) (some 1) (some [85, 85]),
         Call.remove_head none 0,
         Call.insert_tail (some (cstr "b")) (some 2) (some [85, 85])]).q = some q2 ∧
      q2.size = 1 ∧ q2.head = none ∧ q2.tail = some 2) :=
  ⟨⟨_, rfl, rfl, rfl, rfl, rfl⟩, ⟨_, rfl, rfl, rfl, rfl⟩⟩

/-- C10 (evaluation of the code where the claim fails): after `q_new()`,
`q_insert_tail(q, "a")`, `q_remove_head(q, NULL, 0)` and `q_insert_tail(q, "b")`,
each of which returns `true`, the size field is `1` but no element is reachable
from `head`: the chain read from `head` is empty. -/
theorem q_size_exceeds_chain :
    ∃ q1, (run (q_new mem0 live0 true)
        [Call.insert_tail (some (cstr "a")) (some 1) (some [85, 85]),
         Call.remove_head none 0,
         Call.insert_tail (some (cstr "b")) (some 2) (some [85, 85])]).q = some q1 ∧
      q1.size = 1 ∧
      Chain (run (q_new mem0 live0 true)
        [Call.insert_tail (some (cstr "a")) (some 1) (some [85, 85]),
         Call.remove_head none 0,
         Call.insert_tail (some (cstr "b")) (some 2) (some [85, 85])]).mem q1.head [] ∧
      q1.size ≠ ([] : List Nat).length ∧
      net_inserted (q_new mem0 live0 true)
        [Call.insert_tail (some (cstr "a")) (some 1) (some [85, 85]),
         Call.remove_head none 0,
         Call.insert_tail (some (cstr "b")) (some 2) (some [85, 85])] = 1 :=
  ⟨_, rfl, rfl, rfl, by decide, by decide⟩

/-! ## The tail after sorting -/

/-- C11 (evaluation of the code where the claim fails): sorting the queue that
reads "b", "a" gives the chain `[2, 1]` ("a", "b"), but `q_sort` assigns only
`head`: `tail` is still the element `2`, which is now the first element and
whose `next` is the element `1`, not `NULL`.  A following
`q_insert_tail(q, "c")` links the new element after `2`: the chain read from
`head` is then "a", "c", the element holding "b" is no longer reachable and the
size field is `3`. -/
theorem q_sort_keeps_stale_tail :
    ∃ st1 q1, q_sort 2 ba_queue = some st1 ∧ st1.q = some q1 ∧
      Chain st1.mem q1.head [2, 1] ∧
      values st1.mem [2, 1] = [cstr "a", cstr "b"] ∧
      q1.tail = some 2 ∧ (st1.mem 2).next = some 1 ∧ (st1.mem 1).next = none ∧
      ∃ q2, (q_insert_tail st1 (some (cstr "c")) (some 3) (some [85, 85])).1.q = some q2 ∧
        (q_insert_tail st1 (some (cstr "c")) (some 3) (some [85, 85])).2 = true ∧
        Chain (q_insert_tail st1 (some (cstr "c")) (some 3) (some [85, 85])).1.mem q2.head
          [2, 3] ∧
        values (q_insert_tail st1 (some (cstr "c")) (some 3) (some [85, 85])).1.mem [2, 3] =
          [cstr "a", cstr "c"] ∧
        q2.size = 3 :=
  ⟨_, _, rfl, rfl, by decide, by decide, rfl, rfl, rfl, _, rfl, rfl, by decide, by decide, rfl⟩

/-! ## Stability and idempotence of the sort -/

/-- C12: `q_sort` is stable.  When the elements `as` form a chain from `head`, the
values of `x` and `y` compare equal under `strcasecmp` and `x` precedes `y` in
`as`, then `q_sort` returns and `x` still precedes `y` in the chain read from
`head`, which is a permutation of `as`. -/
theorem q_sort_stable (st : State) (q : queue_t) (as : List Nat) (fuel : Nat) (x y : Nat)
    (hq : st.q = some q) (hc : Chain st.mem q.head as) (hlen : as.length ≤ fuel)
    (heq : strcasecmp (st.mem x).value (st.mem y).value = 0)
    (hxy : List.Sublist [x, y] as) :
    ∃ st1 q1 as1, q_sort fuel st = some st1 ∧ st1.q = some q1 ∧
      Chain st1.mem q1.head as1 ∧ as1.Perm as ∧ List.Sublist [x, y] as1 := by
  obtain ⟨m1, hrun, hchain, _, _⟩ := q_sort_spec st q as fuel hq hc hlen
  have hle : le_in st x y = true := by
    simp only [le_in, le_ci, decide_eq_true_eq]
    omega
  exact ⟨_, _, _, hrun, rfl, hchain, List.mergeSort_perm as (le_in st),
    List.pair_sublist_mergeSort (le_ci_trans _) (le_ci_total _) hle hxy⟩

theorem q_sort_stable_witness :
    ∃ st1 q1 as1, q_sort 3 baA_queue = some st1 ∧ st1.q = some q1 ∧
      Chain st1.mem q1.head as1 ∧ as1.Perm [1, 2, 3] ∧ List.Sublist [2, 3] as1 :=
  q_sort_stable baA_queue { head := some 1, tail := some 3, size := 3 } [1, 2, 3] 3 2 3
    rfl (by decide) (by decide) (by decide) (by decide)

theorem pairwise_of_sorted_values (st : State) (as : List Nat)
    (hs : List.Chain' (fun a b => strcasecmp a b ≤ 0) (values st.mem as)) :
    as.Pairwise fun a b => le_in st a b = true := by
  haveI : IsTrans Nat (fun a b => le_in st a b = true) := ⟨le_ci_trans _⟩
  rw [← List.chain'_iff_pairwise]
  unfold values at hs
  rw [List.chain'_map] at hs
  refine List.Chain'.imp ?_ hs
  intro a b hab
  simp only [le_in, le_ci, decide_eq_true_eq]
  exact hab

/-- C16: `q_sort` is idempotent.  When the values read from `head` are already
non-decreasing under `strcasecmp`, `q_sort` returns and the chain read from
`head` is the same list of elements in the same order.  Hence for every queue
whose elements form a chain from `head`, sorting the sorted queue once more
returns and reads the same list of elements as after the first sort. -/
theorem q_sort_idempotent :
    (∀ (st : State) (q : queue_t) (as : List Nat) (fuel : Nat),
      st.q = some q → Chain st.mem q.head as → as.length ≤ fuel →
      List.Chain' (fun a b => strcasecmp a b ≤ 0) (values st.mem as) →
      ∃ st1 q1, q_sort fuel st = some st1 ∧ st1.q = some q1 ∧ Chain st1.mem q1.head as ∧
        values st1.mem as = values st.mem as) ∧
    (∀ (st : State) (q : queue_t) (as : List Nat) (fuel : Nat),
      st.q = some q → Chain st.mem q.head as → as.length ≤ fuel →
      ∃ st1 q1 as1 st2 q2, q_sort fuel st = some st1 ∧ st1.q = some q1 ∧
        Chain st1.mem q1.head as1 ∧
        q_sort fuel st1 = some st2 ∧ st2.q = some q2 ∧ Chain st2.mem q2.head as1 ∧
        values st2.mem as1 = values st1.mem as1) := by
  have key : ∀ (st : State) (q : queue_t) (as : List Nat) (fuel : Nat),
      st.q = some q → Chain st.mem q.head as → as.length ≤ fuel →
      List.Chain' (fun a b => strcasecmp a b ≤ 0) (values st.mem as) →
      ∃ st1 q1, q_sort fuel st = some st1 ∧ st1.q = some q1 ∧ Chain st1.mem q1.head as ∧
        values st1.mem as = values st.mem as := by
    intro st q as fuel hq hc hlen hs
    obtain ⟨m1, hrun, hchain, _, hval⟩ := q_sort_spec st q as fuel hq hc hlen
    have hsame : as.mergeSort (le_in st) = as :=
      List.mergeSort_of_sorted (pairwise_of_sorted_values st as hs)
    rw [hsame] at hrun hchain
    exact ⟨_, _, hrun, rfl, hchain, values_frame _ _ as (fun a _ => hval a)⟩
  refine ⟨key, ?_⟩
  intro st q as fuel hq hc hlen
  obtain ⟨m1, hrun, hchain, _, hval⟩ := q_sort_spec st q as fuel hq hc hlen
  have hsorted := List.Pairwise.chain' (sorted_values st m1 as hval)
  obtain ⟨st2, q2, hrun2, hq2, hchain2, hval2⟩ :=
    key { mem := m1, live := st.live,
          q := some { head := (as.mergeSort (le_in st)).head?, tail := q.tail,
                      size := q.size } } _ (as.mergeSort (le_in st)) fuel rfl hchain
      (by rw [List.length_mergeSort]; exact hlen) hsorted
  exact ⟨_, _, _, st2, q2, hrun, rfl, hchain, hrun2, hq2, hchain2, hval2⟩

theorem q_sort_idempotent_witness :
    (∃ st1 q1, q_sort 2 ab_queue = some st1 ∧ st1.q = some q1 ∧ Chain st1.mem q1.head [1, 2] ∧
      values st1.mem [1, 2] = values ab_queue.mem [1, 2]) ∧
    (∃ st1 q1 as1 st2 q2, q_sort 3 fruit_queue = some st1 ∧ st1.q = some q1 ∧
      Chain st1.mem q1.head as1 ∧
      q_sort 3 st1 = some st2 ∧ st2.q = some q2 ∧ Chain st2.mem q2.head as1 ∧
      values st2.mem as1 = values st1.mem as1) :=
  ⟨q_sort_idempotent.1 ab_queue { head := some 1, tail := some 2, size := 2 } [1, 2] 2
      rfl (by decide) (by decide)
      (by
        show List.Chain' _ [(ab_queue.mem 1).value, (ab_queue.mem 2).value]
        exact List.chain'_pair.mpr (by decide)),
   q_sort_idempotent.2 fruit_queue { head := some 1, tail := some 3, size := 3 } [1, 2, 3] 3
      rfl (by decide) (by decide)⟩

/-! ## Failing calls -/

/-- C13: on an absent queue and on a queue whose `head` is `NULL`, `q_remove_head`
returns `false` and changes nothing: the state (heap, allocation map, `head`,
`tail`, `size`) and the memory of the buffer argument are exactly as before. -/
theorem q_remove_head_fails (st : State) (sp : Option (List Nat)) (bufsize : Nat)
    (h : st.q = none ∨ ∃ q, st.q = some q ∧ q.head = none) :
    q_remove_head st sp bufsize = (st, sp, some false) := by
  rcases h with h | ⟨q, hq, hh⟩
  · simp only [q_remove_head, h]
  · simp only [q_remove_head, hq, hh]

theorem q_remove_head_fails_witness :
    q_remove_head (q_new mem0 live0 true) (some [85, 85]) 2 =
      (q_new mem0 live0 true, some [85, 85], some false) :=
  q_remove_head_fails (q_new mem0 live0 true) (some [85, 85]) 2 (Or.inr ⟨_, rfl, rfl⟩)

theorem Chain.next_eq {m m1 : Nat → list_ele_t} :
    ∀ {as : List Nat} {p : Option Nat}, Chain m p as → Chain m1 p as →
      ∀ a ∈ as, (m1 a).next = (m a).next
  | [], _, _, _, _, ha => by cases ha
  | b :: bs, _, h, h1, a, ha => by
    rcases List.mem_cons.mp ha with e | hmem
    · subst e
      cases bs with
      | nil =>
        have e1 : (m a).next = none := h.2
        have e2 : (m1 a).next = none := h1.2
        rw [e1, e2]
      | cons c cs =>
        have e1 : (m a).next = some c := h.2.1
        have e2 : (m1 a).next = some c := h1.2.1
        rw [e1, e2]
    · have hn : (m1 b).next = (m b).next := by
        cases bs with
        | nil => cases hmem
        | cons c cs =>
          have e1 : (m b).next = some c := h.2.1
          have e2 : (m1 b).next = some c := h1.2.1
          rw [e1, e2]
      have h2 : Chain m1 (m b).next bs := hn ▸ h1.2
      exact Chain.next_eq h.2 h2 a hmem

/-- Effect of `q_reverse` on a queue whose elements `as` form a non-empty chain
from `head` to `tail`. -/
theorem q_reverse_run (st : State) (q : queue_t) (as : List Nat) (fuel : Nat)
    (hq : st.q = some q) (hc : Chain st.mem q.head as) (hne : as ≠ [])
    (htail : q.tail = as.getLast?) (hlen : as.length ≤ fuel) :
    ∃ m1, q_reverse fuel st = some
        { mem := m1, live := st.live,
          q := some { head := q.tail, tail := q.head, size := q.size } } ∧
      Chain m1 q.tail as.reverse ∧
      (∀ x, (m1 x).value = (st.mem x).value) ∧ (∀ x, x ∉ as → m1 x = st.mem x) := by
  match as, hc, hne, htail, hlen with
  | h0 :: rest, hc, _, htail, hlen =>
    have hh : q.head = some h0 := hc.1
    have hnd := List.nodup_cons.mp (Chain.nodup hc)
    obtain ⟨m1, p1, hrun, hchain, hfr, hval⟩ :=
      q_reverse_loop_spec h0 fuel rest [h0] st.mem h0 (st.mem h0).next hc.2
        ⟨rfl, set_next_same _ _ _⟩
        (fun x hx hx1 => hnd.1 ((List.mem_singleton.mp hx1) ▸ hx)) hnd.1
        (by simp only [List.length_cons] at hlen; omega)
    have hrev : rest.reverse ++ [h0] = (h0 :: rest).reverse := by simp
    rw [hrev] at hchain
    have hp1 : some p1 = q.tail := by
      rw [htail, Chain.head_eq hchain, List.head?_reverse]
    refine ⟨set_next m1 h0 none, ?_, hp1 ▸ hchain, ?_, ?_⟩
    · simp only [q_reverse, hq, hh, hrun, hp1]
    · intro x
      rw [set_next_value, hval]
    · intro x hx
      rw [set_next_other _ _ _ _ (fun e => hx (by rw [e]; exact List.mem_cons_self h0 rest)),
        hfr x (fun h => hx (List.mem_cons_of_mem h0 h))]

theorem list_ele_t.eq_of_fields (a b : list_ele_t) (hv : a.value = b.value)
    (hn : a.next = b.next) : a = b := by
  cases a
  cases b
  simp only at hv hn
  rw [hv, hn]

/-- C15: on a queue whose elements `as` form a chain from `head` to `tail` (`tail`
is `NULL` when the chain is empty), `q_reverse` applied twice returns both times
and the second call gives back the state before the first: the same heap, so
the same chain `as` read from `head`, and the same `head`, `tail` and `size`. -/
theorem q_reverse_twice (st : State) (q : queue_t) (as : List Nat) (fuel : Nat)
    (hq : st.q = some q) (hc : Chain st.mem q.head as) (htail : q.tail = as.getLast?)
    (hlen : as.length ≤ fuel) :
    ∃ st1 st2 q2, q_reverse fuel st = some st1 ∧ q_reverse fuel st1 = some st2 ∧
      st2 = st ∧ st2.q = some q2 ∧ Chain st2.mem q2.head as ∧
      q2.head = q.head ∧ q2.tail = q.tail ∧ q2.size = q.size := by
  by_cases hne : as = []
  · subst hne
    have hh : q.head = none := hc
    have hrun : q_reverse fuel st = some st := by
      simp only [q_reverse, hq, hh]
    exact ⟨st, st, q, hrun, hrun, rfl, hq, hc, rfl, rfl, rfl⟩
  · obtain ⟨m1, hrun1, hchain1, hval1, hfr1⟩ := q_reverse_run st q as fuel hq hc hne htail hlen
    have hhead : q.head = as.head? := Chain.head_eq hc
    obtain ⟨m2, hrun2, hchain2, hval2, hfr2⟩ :=
      q_reverse_run { mem := m1, live := st.live,
                      q := some { head := q.tail, tail := q.head, size := q.size } }
        { head := q.tail, tail := q.head, size := q.size } as.reverse fuel rfl hchain1
        (by simpa using hne) (by rw [List.getLast?_reverse]; exact hhead)
        (by rw [List.length_reverse]; exact hlen)
    rw [List.reverse_reverse] at hchain2
    dsimp only at hrun2 hchain2 hval2 hfr2
    have hmem : m2 = st.mem := by
      funext x
      by_cases hx : x ∈ as
      · exact list_ele_t.eq_of_fields _ _ (by rw [hval2, hval1])
          (Chain.next_eq hc hchain2 x hx)
      · rw [hfr2 x (by simpa using hx), hfr1 x hx]
    have hst : State.mk m2 st.live (some (queue_t.mk q.head q.tail q.size)) = st := by
      obtain ⟨mem, live, sq⟩ := st
      obtain ⟨h, t, n⟩ := q
      simp only at hq hmem
      subst hq hmem
      rfl
    refine ⟨_, _, q, hrun1, hrun2, hst, ?_, ?_, rfl, rfl, rfl⟩
    · rw [hst]
      exact hq
    · rw [hst]
      exact hc

theorem q_reverse_twice_witness :
    ∃ st1 st2 q2, q_reverse 3 abc_queue = some st1 ∧ q_reverse 3 st1 = some st2 ∧
      st2 = abc_queue ∧ st2.q = some q2 ∧ Chain st2.mem q2.head [3, 2, 1] ∧
      q2.head = some 3 ∧ q2.tail = some 1 ∧ q2.size = 3 :=
  q_reverse_twice abc_queue { head := some 3, tail := some 1, size := 3 } [3, 2, 1] 3
    rfl (by decide) rfl (by decide)

/-! ## Round trip -/

theorem strlen_copy : ∀ s : List Nat, strlen (s.take (strlen s) ++ [0]) = strlen s
  | [] => rfl
  | c :: cs => by
    by_cases h0 : c = 0
    · simp [strlen, h0]
    · simp only [strlen, h0, if_false, List.take_succ_cons, List.cons_append]
      rw [strlen_copy cs]

/-- Contents of a buffer of capacity `c ≥ 1` after `memset(sp, 0, c)` and
`strncpy(sp, val, c - 1)`. -/
theorem strncpy_memset_take (buf val : List Nat) (c : Nat) (hc1 : 1 ≤ c) :
    (strncpy (memset buf 0 c) val (c - 1)).take c =
      val.take (min (strlen val) (c - 1)) ++
        List.replicate (c - min (strlen val) (c - 1)) 0 := by
  have hle := strlen_le_length val
  have hdrop : (memset buf 0 c).drop (c - 1) = 0 :: buf.drop c := by
    unfold memset
    rw [List.drop_append_of_le_length (by simp), List.drop_replicate]
    have : c - (c - 1) = 1 := by omega
    rw [this]
    rfl
  have hlen : (val.take (min (strlen val) (c - 1)) ++
      List.replicate (c - 1 - strlen val) 0 ++ [0]).length = c := by
    simp only [List.length_append, List.length_take, List.length_replicate,
      List.length_cons, List.length_nil]
    omega
  have hout : strncpy (memset buf 0 c) val (c - 1) =
      (val.take (min (strlen val) (c - 1)) ++ List.replicate (c - 1 - strlen val) 0 ++ [0])
        ++ buf.drop c := by
    unfold strncpy
    rw [hdrop]
    simp
  have hn : c - min (strlen val) (c - 1) = (c - 1 - strlen val) + 1 := by omega
  rw [hout, List.take_left' hlen, List.append_assoc, hn, List.replicate_succ']

/-- The two calls of `insert_then_remove` with a queue, a string, successful
allocations and a buffer of capacity `c`, `1 ≤ c < 2 ^ 64`. -/
theorem insert_then_remove_run (st : State) (q : queue_t) (s : List Nat) (newh : Nat)
    (blk buf : List Nat) (c : Nat) (hq : st.q = some q)
    (hc1 : 1 ≤ c) (hc2 : c < 2 ^ SIZE_WIDTH) :
    ∃ t, insert_then_remove st (some s) (some newh) (some blk) (some buf) c =
      ({ mem := set_next (set_value st.mem newh (copy_string blk s (wrap_int (strlen s))))
                  newh q.head,
         live := set_live (set_live st.live newh true) newh false,
         q := some { head := q.head, tail := t,
                     size := wrap_int (wrap_int (q.size + 1) - 1) } },
       some (strncpy (memset buf 0 c) (copy_string blk s (wrap_int (strlen s))) (c - 1)),
       some true) := by
  obtain ⟨t, hrun⟩ := q_insert_head_run st q s newh blk hq
  have hmod : (c + 2 ^ SIZE_WIDTH - 1) % 2 ^ SIZE_WIDTH = c - 1 := by
    simp only [SIZE_WIDTH] at hc2 ⊢
    omega
  refine ⟨t, ?_⟩
  unfold insert_then_remove
  rw [hrun, q_remove_head_run _ _ newh (some buf) c rfl rfl (Or.inr ⟨hc1, hc2⟩)]
  have hcell : (set_next (set_value st.mem newh (copy_string blk s (wrap_int (strlen s))))
      newh q.head newh).value = copy_string blk s (wrap_int (strlen s)) := by
    rw [set_next_value]
    unfold set_value
    rw [if_pos rfl]
  dsimp only
  rw [Option.map_some', hmod, hcell, set_next_same]

theorem take_two_replicate (n : Nat) (hn : 2 ≤ n) :
    (List.replicate n 97 ++ [0]).take 2 = [97, 97] := by
  match n, hn with
  | k + 2, _ => simp [List.replicate_succ]

/-- C17 (as stated, refuted): a string of `2 ^ 32 + 1` bytes inserted at the head of
a new queue and removed at once into a buffer of capacity `3`.  Both calls
return `true`; the buffer then holds one byte of the string and zero bytes, not
the first two bytes of the string and a terminator. -/
theorem round_trip_truncates :
    (q_insert_head (q_new mem0 live0 true) (some long_string) (some 1) (some [85, 85])).2 =
      true ∧
    (insert_then_remove (q_new mem0 live0 true) (some long_string) (some 1) (some [85, 85])
      (some [85, 85, 85]) 3).2.2 = some true ∧
    3 ≤ strlen long_string ∧
    ∃ out, (insert_then_remove (q_new mem0 live0 true) (some long_string) (some 1)
        (some [85, 85]) (some [85, 85, 85]) 3).2.1 = some out ∧
      out.take 3 = [97, 0, 0] ∧ long_string.take (3 - 1) ++ [0] = [97, 97, 0] ∧
      out.take 3 ≠ long_string.take (3 - 1) ++ [0] := by
  obtain ⟨t, hrun⟩ := insert_then_remove_run (q_new mem0 live0 true) _ long_string 1 [85, 85]
    [85, 85, 85] 3 rfl (by decide) (by simp [SIZE_WIDTH])
  have hcs : copy_string [85, 85] long_string (wrap_int (strlen long_string)) = [97, 0] :=
    copy_string_long 4294967296 (by decide)
  have hlen : strlen long_string = 4294967296 + 1 := strlen_replicate 97 (by decide) _
  have htake : long_string.take (3 - 1) ++ [0] = [97, 97, 0] := by
    show (List.replicate (4294967296 + 1) 97 ++ [0]).take 2 ++ [0] = [97, 97, 0]
    rw [take_two_replicate _ (by omega)]
    rfl
  rw [hrun, hcs]
  refine ⟨rfl, rfl, by omega, _, rfl, by decide, htake, ?_⟩
  rw [htake]
  decide

/-- C17 (amended): round trip.  On a queue whose allocated elements `L` form a
chain from `head`, `q_insert_head` with a string `s` of at most `INT_MAX` bytes
(a fresh element, a block of `strlen s + 1` bytes) followed at once by
`q_remove_head` with a buffer of capacity `c`, `1 ≤ c < 2 ^ 64`: both calls
return `true`; when `c` exceeds the length of `s` the buffer holds the bytes of
`s` followed by zero bytes up to the capacity; when `c` is at most the length of
`s` the buffer holds the first `c - 1` bytes of `s` and a terminator; the chain
read from `head`, its values and the size field are as before the insert. -/
theorem insert_remove_round_trip (st : State) (q : queue_t) (L : List Nat) (s : List Nat)
    (newh : Nat) (blk buf : List Nat) (c : Nat)
    (hq : st.q = some q) (hc : Chain st.mem q.head L) (hlive : ∀ a ∈ L, st.live a = true)
    (hfresh : st.live newh = false) (hblk : blk.length = strlen s + 1)
    (hs : (strlen s : Int) ≤ INT_MAX) (hlo : -2147483648 ≤ q.size) (hhi : q.size ≤ INT_MAX)
    (hc1 : 1 ≤ c) (hc2 : c < 2 ^ SIZE_WIDTH) :
    (q_insert_head st (some s) (some newh) (some blk)).2 = true ∧
    (insert_then_remove st (some s) (some newh) (some blk) (some buf) c).2.2 = some true ∧
    ∃ out, (insert_then_remove st (some s) (some newh) (some blk) (some buf) c).2.1 = some out ∧
      (strlen s < c → out.take c = s.take (strlen s) ++ List.replicate (c - strlen s) 0) ∧
      (strlen s < c → out.take (strlen s + 1) = s.take (strlen s) ++ [0]) ∧
      (c ≤ strlen s → out.take c = s.take (c - 1) ++ [0]) ∧
      ∃ q2, (insert_then_remove st (some s) (some newh) (some blk) (some buf) c).1.q = some q2 ∧
        Chain (insert_then_remove st (some s) (some newh) (some blk) (some buf) c).1.mem
          q2.head L ∧
        values (insert_then_remove st (some s) (some newh) (some blk) (some buf) c).1.mem L =
          values st.mem L ∧
        q2.size = q.size := by
  have hnew : newh ∉ L := by
    intro h
    have := hlive newh h
    rw [hfresh] at this
    cases this
  obtain ⟨t0, hins⟩ := q_insert_head_run st q s newh blk hq
  obtain ⟨t, hrun⟩ := insert_then_remove_run st q s newh blk buf c hq hc1 hc2
  have hval := copy_string_short blk s hs hblk
  have hk := strlen_le_length s
  have hklen : (s.take (strlen s)).length = strlen s := by
    rw [List.length_take]
    omega
  have htake := strncpy_memset_take buf (s.take (strlen s) ++ [0]) c hc1
  rw [strlen_copy] at htake
  have hbig : strlen s < c →
      (strncpy (memset buf 0 c) (s.take (strlen s) ++ [0]) (c - 1)).take c =
        s.take (strlen s) ++ List.replicate (c - strlen s) 0 := by
    intro hlt
    have hmin : min (strlen s) (c - 1) = strlen s := by omega
    rw [htake, hmin, List.take_left' hklen]
  have hsz : wrap_int (wrap_int (q.size + 1) - 1) = q.size := by
    unfold INT_MAX at hhi
    unfold wrap_int
    omega
  rw [hrun, hins, hval]
  refine ⟨rfl, rfl, _, rfl, hbig, ?_, ?_, _, rfl, ?_, ?_, hsz⟩
  · intro hlt
    have h1 := congrArg (List.take (strlen s + 1)) (hbig hlt)
    rw [List.take_take] at h1
    have hmin : min (strlen s + 1) c = strlen s + 1 := by omega
    rw [hmin] at h1
    rw [h1]
    have hrep : List.replicate (c - strlen s) 0 = 0 :: List.replicate (c - strlen s - 1) 0 := by
      have : c - strlen s = (c - strlen s - 1) + 1 := by omega
      rw [this, List.replicate_succ]
      simp
    rw [hrep, List.take_append_eq_append_take, hklen]
    simp [List.take_of_length_le (Nat.le_of_eq hklen) ]
  · intro hle
    have hmin : min (strlen s) (c - 1) = c - 1 := by omega
    rw [htake, hmin]
    have h1 : c - (c - 1) = 1 := by omega
    rw [h1, List.take_append_of_le_length (by omega), List.take_take]
    have hmin2 : min (c - 1) (strlen s) = c - 1 := by omega
    rw [hmin2]
    rfl
  · refine Chain.frame (fun a ha => ?_) hc
    have hne : a ≠ newh := fun e => hnew (e ▸ ha)
    simp [set_next, set_value, hne]
  · refine values_frame _ _ L (fun a ha => ?_)
    have hne : a ≠ newh := fun e => hnew (e ▸ ha)
    simp [set_next, set_value, hne]

theorem insert_remove_round_trip_witness :
    (q_insert_head abc_queue (some (cstr "xy")) (some 4) (some [85, 85, 85])).2 = true ∧
    (insert_then_remove abc_queue (some (cstr "xy")) (some 4) (some [85, 85, 85])
      (some [85, 85, 85, 85]) 4).2.2 = some true ∧
    ∃ out, (insert_then_remove abc_queue (some (cstr "xy")) (some 4) (some [85, 85, 85])
        (some [85, 85, 85, 85]) 4).2.1 = some out ∧
      (strlen (cstr "xy") < 4 → out.take 4 =
        (cstr "xy").take (strlen (cstr "xy")) ++ List.replicate (4 - strlen (cstr "xy")) 0) ∧
      (strlen (cstr "xy") < 4 → out.take (strlen (cstr "xy") + 1) =
        (cstr "xy").take (strlen (cstr "xy")) ++ [0]) ∧
      (4 ≤ strlen (cstr "xy") → out.take 4 = (cstr "xy").take (4 - 1) ++ [0]) ∧
      ∃ q2, (insert_then_remove abc_queue (some (cstr "xy")) (some 4) (some [85, 85, 85])
          (some [85, 85, 85, 85]) 4).1.q = some q2 ∧
        Chain (insert_then_remove abc_queue (some (cstr "xy")) (some 4) (some [85, 85, 85])
          (some [85, 85, 85, 85]) 4).1.mem q2.head [3, 2, 1] ∧
        values (insert_then_remove abc_queue (some (cstr "xy")) (some 4) (some [85, 85, 85])
          (some [85, 85, 85, 85]) 4).1.mem [3, 2, 1] = values abc_queue.mem [3, 2, 1] ∧
        q2.size = 3 :=
  insert_remove_round_trip abc_queue { head := some 3, tail := some 1, size := 3 } [3, 2, 1]
    (cstr "xy") 4 [85, 85, 85] [85, 85, 85, 85] 4 rfl (by decide) (by decide) rfl (by decide)
    (by decide) (by decide) (by decide) (by decide) (by simp [SIZE_WIDTH])

/-! ## The merge step on sorted chains -/

theorem merge_sublist_left (le : Nat → Nat → Bool) :
    ∀ ls rs : List Nat, List.Sublist ls (List.merge ls rs le)
  | [], rs => List.nil_sublist _
  | l :: ls, [] => by
    rw [List.merge_right]
  | l :: ls, r :: rs => by
    by_cases h : le l r = true
    · rw [List.cons_merge_cons_pos _ _ _ h]
      exact List.Sublist.cons₂ l (merge_sublist_left le ls (r :: rs))
    · rw [List.cons_merge_cons_neg _ _ _ h]
      exact List.Sublist.cons r (merge_sublist_left le (l :: ls) rs)

theorem merge_sublist_right (le : Nat → Nat → Bool) :
    ∀ ls rs : List Nat, List.Sublist rs (List.merge ls rs le)
  | [], rs => by
    rw [List.nil_merge]
  | l :: ls, [] => List.nil_sublist _
  | l :: ls, r :: rs => by
    by_cases h : le l r = true
    · rw [List.cons_merge_cons_pos _ _ _ h]
      exact List.Sublist.cons l (merge_sublist_right le ls (r :: rs))
    · rw [List.cons_merge_cons_neg _ _ _ h]
      exact List.Sublist.cons₂ r (merge_sublist_right le (l :: ls) rs)

/-- In the merge of a sorted list `ls` with `rs`, an element of `ls` comes before
every element of `rs` that is not smaller. -/
theorem merge_left_first (le : Nat → Nat → Bool)
    (trans : ∀ a b c, le a b = true → le b c = true → le a c = true) :
    ∀ ls rs : List Nat, ls.Pairwise (fun a b => le a b = true) →
      ∀ x ∈ ls, ∀ y ∈ rs, le x y = true → List.Sublist [x, y] (List.merge ls rs le)
  | [], _, _, x, hx, _, _, _ => by cases hx
  | l :: ls, [], _, _, _, y, hy, _ => by cases hy
  | l :: ls, r :: rs, hs, x, hx, y, hy, hxy => by
    by_cases h : le l r = true
    · rw [List.cons_merge_cons_pos _ _ _ h]
      rcases List.mem_cons.mp hx with e | hx1
      · subst e
        refine List.Sublist.cons₂ x ?_
        exact List.singleton_sublist.mpr (List.mem_merge_right le hy)
      · exact List.Sublist.cons l
          (merge_left_first le trans ls (r :: rs) (List.Pairwise.of_cons hs) x hx1 y hy hxy)
    · rw [List.cons_merge_cons_neg _ _ _ h]
      have hlx : x = l ∨ le l x = true := by
        rcases List.mem_cons.mp hx with e | hx1
        · exact Or.inl e
        · exact Or.inr (List.rel_of_pairwise_cons hs hx1)
      rcases List.mem_cons.mp hy with e | hy1
      · subst e
        exfalso
        rcases hlx with e | hl
        · subst e
          exact h hxy
        · exact h (trans _ _ _ hl hxy)
      · exact List.Sublist.cons r (merge_left_first le trans (l :: ls) rs hs x hx y hy1 hxy)

theorem q_merge_right_absent (fuel : Nat) (m : Nat → list_ele_t) (l : Nat) :
    q_merge fuel m (some l) none = some (m, some l) := by
  simp only [q_merge, q_merge_loop_stop_right, q_merge_rest, store_next]

theorem q_merge_left_absent (fuel : Nat) (m : Nat → list_ele_t) (r : Nat) :
    q_merge fuel m none (some r) = some (m, some r) := by
  simp only [q_merge, q_merge_loop_stop_left, q_merge_rest, store_next]

theorem no_chain_of_self_loop (m : Nat → list_ele_t) (a : Nat)
    (hloop : (m a).next = some a) : ∀ as, ¬ Chain m (some a) as := by
  intro as h
  have hnd := Chain.nodup h
  match as, h, hnd with
  | [], h, _ => cases h
  | [b], h, _ =>
    have e : a = b := Option.some.inj h.1
    subst e
    have h2 : (m a).next = none := h.2
    rw [hloop] at h2
    cases h2
  | b :: c :: rest, h, hnd =>
    have e : a = b := Option.some.inj h.1
    subst e
    have h2 : (m a).next = some c := h.2.1
    rw [hloop] at h2
    have e2 : a = c := Option.some.inj h2
    subst e2
    exact (List.nodup_cons.mp hnd).1 (List.mem_cons_self a rest)

/-- C18 (as stated, refuted).  Two chains that share an element: merging the
one-element chain of `xy_queue` with itself returns the element `1` with its
`next` pointing at itself, so no chain can be read from the result.  And with
both chains absent `q_merge` skips its loop and both assignments and returns
`tmp_head.next`, which has never been assigned: there is no defined result. -/
theorem q_merge_shared_or_absent :
    (Chain xy_queue.mem (some 1) [1] ∧
      ∃ m1, q_merge 1 xy_queue.mem (some 1) (some 1) = some (m1, some 1) ∧
        (m1 1).next = some 1 ∧ ∀ as, ¬ Chain m1 (some 1) as) ∧
    ¬ ∃ fuel r, q_merge fuel mem0 none none = some r := by
  refine ⟨⟨by decide, _, rfl, rfl, no_chain_of_self_loop _ 1 rfl⟩, ?_⟩
  rintro ⟨fuel, r, h⟩
  simp [q_merge, q_merge_loop_stop_left, q_merge_rest] at h

/-- C18 (amended): for two chains `ls` and `rs` that share no element and are not
both absent, each non-decreasing under `strcasecmp`, `q_merge` returns a chain
`out` that is
non-decreasing, is a permutation of the elements of `ls` and `rs`, keeps the
order of `ls` and the order of `rs`, and has an element of `ls` before an element
of `rs` whenever their values compare equal; values are unchanged and cells
outside the two chains untouched; when one of the two chains is absent the
other one is returned with the heap unchanged. -/
theorem q_merge_sorted (fuel : Nat) (m : Nat → list_ele_t) (left right : Option Nat)
    (ls rs : List Nat)
    (hl : Chain m left ls) (hr : Chain m right rs) (hdisj : ∀ x ∈ ls, x ∉ rs)
    (hne : ls ≠ [] ∨ rs ≠ []) (hfuel : ls.length + rs.length ≤ fuel + 1)
    (hsl : List.Chain' (fun a b => strcasecmp a b ≤ 0) (values m ls))
    (hsr : List.Chain' (fun a b => strcasecmp a b ≤ 0) (values m rs)) :
    ∃ m1 p out, q_merge fuel m left right = some (m1, p) ∧ Chain m1 p out ∧
      List.Chain' (fun a b => strcasecmp a b ≤ 0) (values m1 out) ∧
      out.Perm (ls ++ rs) ∧ List.Sublist ls out ∧ List.Sublist rs out ∧
      (∀ x ∈ ls, ∀ y ∈ rs, strcasecmp (m x).value (m y).value = 0 →
        List.Sublist [x, y] out) ∧
      (∀ x, (m1 x).value = (m x).value) ∧ (∀ x, x ∉ ls → x ∉ rs → m1 x = m x) ∧
      (right = none → m1 = m ∧ p = left) ∧ (left = none → m1 = m ∧ p = right) := by
  obtain ⟨m1, hrun, hchain, hfr, hval⟩ :=
    q_merge_spec (fun x => (m x).value) fuel m left right ls rs (fun _ => rfl) hl hr hdisj
      hne hfuel
  have hpl := pairwise_of_sorted_values { mem := m, live := live0, q := none } ls hsl
  have hpr := pairwise_of_sorted_values { mem := m, live := live0, q := none } rs hsr
  have hsorted := List.sorted_merge (le_ci_trans fun x => (m x).value)
    (le_ci_total fun x => (m x).value) ls rs hpl hpr
  refine ⟨m1, _, _, hrun, hchain, ?_, List.merge_perm_append _,
    merge_sublist_left _ ls rs, merge_sublist_right _ ls rs, ?_, hval, hfr, ?_, ?_⟩
  · unfold values
    rw [List.chain'_map]
    refine List.Chain'.imp ?_ (List.Pairwise.chain' hsorted)
    intro a b hab
    simp only [le_ci, decide_eq_true_eq] at hab
    rw [hval a, hval b]
    exact hab
  · intro x hx y hy hxy
    refine merge_left_first _ (le_ci_trans _) ls rs hpl x hx y hy ?_
    simp only [le_ci, decide_eq_true_eq]
    omega
  · intro hright
    subst hright
    cases ls with
    | nil =>
      have e : rs = [] := by
        cases rs with
        | nil => rfl
        | cons r rs => cases hr.1
      subst e
      simp at hne
    | cons l ls =>
      have e : left = some l := hl.1
      subst e
      rw [q_merge_right_absent] at hrun
      have h1 := congrArg Prod.fst (Option.some.inj hrun)
      have h2 := congrArg Prod.snd (Option.some.inj hrun)
      exact ⟨h1.symm, h2.symm⟩
  · intro hleft
    subst hleft
    cases rs with
    | nil =>
      have e : ls = [] := by
        cases ls with
        | nil => rfl
        | cons l ls => cases hl.1
      subst e
      simp at hne
    | cons r rs =>
      have e : right = some r := hr.1
      subst e
      rw [q_merge_left_absent] at hrun
      have h1 := congrArg Prod.fst (Option.some.inj hrun)
      have h2 := congrArg Prod.snd (Option.some.inj hrun)
      exact ⟨h1.symm, h2.symm⟩

theorem q_merge_sorted_witness :
    ∃ m1 p out, q_merge 3 two_chains (some 1) (some 2) = some (m1, p) ∧ Chain m1 p out ∧
      List.Chain' (fun a b => strcasecmp a b ≤ 0) (values m1 out) ∧
      out.Perm ([1, 3] ++ [2, 4]) ∧ List.Sublist [1, 3] out ∧ List.Sublist [2, 4] out ∧
      (∀ x ∈ [1, 3], ∀ y ∈ [2, 4],
        strcasecmp (two_chains x).value (two_chains y).value = 0 → List.Sublist [x, y] out) ∧
      (∀ x, (m1 x).value = (two_chains x).value) ∧
      (∀ x, x ∉ [1, 3] → x ∉ [2, 4] → m1 x = two_chains x) ∧
      ((some 2 : Option Nat) = none → m1 = two_chains ∧ p = some 1) ∧
      ((some 1 : Option Nat) = none → m1 = two_chains ∧ p = some 2) :=
  q_merge_sorted 3 two_chains (some 1) (some 2) [1, 3] [2, 4] (by decide) (by decide)
    (by decide) (by decide) (by decide)
    (by
      show List.Chain' _ [(two_chains 1).value, (two_chains 3).value]
      exact List.chain'_pair.mpr (by decide))
    (by
      show List.Chain' _ [(two_chains 2).value, (two_chains 4).value]
      exact List.chain'_pair.mpr (by decide))

/-! ## The split of the merge sort -/

/-- C19: on a chain `L` of `n ≥ 2` elements starting at `hd`, `q_merge_sort` splits
and recurses as follows.  Its slow/fast walk stops on an element `slow`; with
`slow->next` cleared, the chain from `hd` is the first `⌈n/2⌉` elements of `L`
and the chain from the old `slow->next` is the remaining `⌊n/2⌋` elements, both
in their original order and both strictly shorter than `L`.  The two recursive
calls of `q_merge_sort`, on exactly these two chains, return the sorted halves,
and the result of `q_merge_sort` on `L` is the result of `q_merge` on what they
return: the recursion terminates. -/
theorem q_merge_sort_split (m : Nat → list_ele_t) (hd : Nat) (L : List Nat) (fuel : Nat)
    (hc : Chain m (some hd) L) (h2 : 2 ≤ L.length) (hfuel : L.length ≤ fuel + 1) :
    ∃ slow m2 left m3 right r,
      q_merge_sort_loop fuel m (some hd) (m hd).next = some (some slow) ∧
      Chain (set_next m slow none) (some hd) (L.take ((L.length + 1) / 2)) ∧
      Chain (set_next m slow none) (m slow).next (L.drop ((L.length + 1) / 2)) ∧
      (L.take ((L.length + 1) / 2)).length = (L.length + 1) / 2 ∧
      (L.drop ((L.length + 1) / 2)).length = L.length / 2 ∧
      L.take ((L.length + 1) / 2) ++ L.drop ((L.length + 1) / 2) = L ∧
      (L.length + 1) / 2 < L.length ∧ L.length / 2 < L.length ∧
      q_merge_sort fuel (set_next m slow none) (some hd) = some (m2, left) ∧
      Chain m2 left
        ((L.take ((L.length + 1) / 2)).mergeSort (le_ci fun x => (m x).value)) ∧
      q_merge_sort fuel m2 (m slow).next = some (m3, right) ∧
      Chain m3 right
        ((L.drop ((L.length + 1) / 2)).mergeSort (le_ci fun x => (m x).value)) ∧
      q_merge_sort (fuel + 1) m (some hd) = q_merge fuel m3 left right ∧
      q_merge_sort (fuel + 1) m (some hd) = some r ∧
      Chain r.1 r.2 (L.mergeSort (le_ci fun x => (m x).value)) := by
  match L, hc, h2, hfuel with
  | a :: b :: xs, hc, h2, hfuel =>
    have e : hd = a := Option.some.inj hc.1
    subst e
    have e2 : (m hd).next = some b := hc.2.1
    have hnd : (hd :: b :: xs).Nodup := Chain.nodup hc
    simp only [List.length_cons] at h2 hfuel
    obtain ⟨mid, s1, post1, hrun, hsplit, hcount⟩ :=
      q_merge_sort_loop_spec m fuel hd (b :: xs) (b :: xs) (m hd).next 0 hc hc.2 (by simp)
        (by simp only [List.length_cons]; omega)
    have hn : (hd :: b :: xs).length = mid.length + 1 + post1.length := by
      rw [hsplit]
      simp
      omega
    simp only [List.length_cons] at hn
    have hhalf : ((hd :: b :: xs).length + 1) / 2 = (mid ++ [s1]).length := by
      simp only [List.length_cons, List.length_append, List.length_nil]
      omega
    have hsplit2 : hd :: b :: xs = (mid ++ [s1]) ++ post1 := by
      rw [hsplit]
      simp
    have htake : (hd :: b :: xs).take (((hd :: b :: xs).length + 1) / 2) = mid ++ [s1] := by
      rw [hhalf, hsplit2]
      exact List.take_left' rfl
    have hdrop : (hd :: b :: xs).drop (((hd :: b :: xs).length + 1) / 2) = post1 := by
      rw [hhalf, hsplit2]
      exact List.drop_left' rfl
    have hc1 := hc
    rw [hsplit] at hc1 hnd
    have hnd1 := List.nodup_append.mp hnd
    have hs1mid : s1 ∉ mid := fun h => hnd1.2.2 h (List.mem_cons_self s1 post1)
    have hs1post : s1 ∉ post1 := (List.nodup_cons.mp hnd1.2.1).1
    have hleftdisj : ∀ x ∈ mid ++ [s1], x ∉ post1 := by
      intro x hx
      rcases List.mem_append.mp hx with h | h
      · exact fun hx1 => hnd1.2.2 h (List.mem_cons_of_mem s1 hx1)
      · rw [List.mem_singleton.mp h]
        exact hs1post
    have hleft0 : Chain (set_next m s1 none) (some hd) (mid ++ [s1]) := Chain.cut hc1 hs1mid
    have hright0 : Chain (set_next m s1 none) (m s1).next post1 :=
      Chain.frame (fun x hx => by
        rw [set_next_other m s1 none x (fun e => hs1post (e ▸ hx))]) (Chain.suffix hc1).2
    obtain ⟨m2, hrun2, hleft2, hfr2, hval2⟩ :=
      q_merge_sort_spec (fun x => (m x).value) fuel (set_next m s1 none) (some hd) (mid ++ [s1])
        (fun x => by rw [set_next_value]) hleft0
        (by simp only [List.length_append, List.length_cons, List.length_nil]; omega)
    have hright2 : Chain m2 (m s1).next post1 :=
      Chain.frame (fun x hx => by
        rw [hfr2 x (fun h => hleftdisj x h hx)]) hright0
    obtain ⟨m3, hrun3, hright3, _, _⟩ :=
      q_merge_sort_spec (fun x => (m x).value) fuel m2 (m s1).next post1 hval2 hright2
        (by omega)
    obtain ⟨m4, hsort, hchain4, _, _⟩ :=
      q_merge_sort_spec (fun x => (m x).value) (fuel + 1) m (some hd) (hd :: b :: xs)
        (fun _ => rfl) hc (by simp only [List.length_cons]; omega)
    have hunfold : q_merge_sort (fuel + 1) m (some hd) =
        q_merge fuel m3 ((mid ++ [s1]).mergeSort (le_ci fun x => (m x).value)).head?
          (post1.mergeSort (le_ci fun x => (m x).value)).head? := by
      rw [e2] at hrun
      simp only [q_merge_sort, e2, hrun, hrun2, hrun3]
    refine ⟨s1, m2, _, m3, _, _, hrun, ?_, ?_, ?_, ?_, List.take_append_drop _ _, ?_, ?_,
      ?_, ?_, ?_, ?_, hunfold, hsort, hchain4⟩
    · rw [htake]
      exact hleft0
    · rw [hdrop]
      exact hright0
    · rw [htake, ← hhalf]
    · rw [hdrop]
      simp only [List.length_cons]
      omega
    · simp only [List.length_cons]
      omega
    · simp only [List.length_cons]
      omega
    · exact hrun2
    · rw [htake]
      exact hleft2
    · exact hrun3
    · rw [hdrop]
      exact hright3

theorem q_merge_sort_split_witness :
    ∃ slow m2 left m3 right r,
      q_merge_sort_loop 2 fruit_queue.mem (some 1) (fruit_queue.mem 1).next =
        some (some slow) ∧
      Chain (set_next fruit_queue.mem slow none) (some 1)
        ([1, 2, 3].take (([1, 2, 3].length + 1) / 2)) ∧
      Chain (set_next fruit_queue.mem slow none) (fruit_queue.mem slow).next
        ([1, 2, 3].drop (([1, 2, 3].length + 1) / 2)) ∧
      ([1, 2, 3].take (([1, 2, 3].length + 1) / 2)).length = ([1, 2, 3].length + 1) / 2 ∧
      ([1, 2, 3].drop (([1, 2, 3].length + 1) / 2)).length = [1, 2, 3].length / 2 ∧
      [1, 2, 3].take (([1, 2, 3].length + 1) / 2) ++
        [1, 2, 3].drop (([1, 2, 3].length + 1) / 2) = [1, 2, 3] ∧
      ([1, 2, 3].length + 1) / 2 < [1, 2, 3].length ∧
      [1, 2, 3].length / 2 < [1, 2, 3].length ∧
      q_merge_sort 2 (set_next fruit_queue.mem slow none) (some 1) = some (m2, left) ∧
      Chain m2 left
        (([1, 2, 3].take (([1, 2, 3].length + 1) / 2)).mergeSort
          (le_ci fun x => (fruit_queue.mem x).value)) ∧
      q_merge_sort 2 m2 (fruit_queue.mem slow).next = some (m3, right) ∧
      Chain m3 right
        (([1, 2, 3].drop (([1, 2, 3].length + 1) / 2)).mergeSort
          (le_ci fun x => (fruit_queue.mem x).value)) ∧
      q_merge_sort (2 + 1) fruit_queue.mem (some 1) = q_merge 2 m3 left right ∧
      q_merge_sort (2 + 1) fruit_queue.mem (some 1) = some r ∧
      Chain r.1 r.2 ([1, 2, 3].mergeSort (le_ci fun x => (fruit_queue.mem x).value)) :=
  q_merge_sort_split fruit_queue.mem 1 [1, 2, 3] 2 (by decide) (by decide) (by decide)

/-! ## The copy bound of `q_remove_head` -/

theorem strncpy_length (dst src : List Nat) (n : Nat) :
    (strncpy dst src n).length = n + (dst.length - n) := by
  have hle := strlen_le_length src
  unfold strncpy
  simp only [List.length_append, List.length_take, List.length_replicate, List.length_drop]
  omega

theorem strncpy_take (dst src : List Nat) (n : Nat) (k : Nat) (hk : k ≤ strlen src)
    (hn : k ≤ n) : (strncpy dst src n).take k = src.take k := by
  have hle := strlen_le_length src
  unfold strncpy
  rw [List.append_assoc, List.take_append_of_le_length, List.take_take]
  · have : min k (min (strlen src) n) = k := by omega
    rw [this]
  · rw [List.length_take]
    omega

/-- C20 (evaluation of the code where the claim fails): removing the element "xy"
with a buffer argument and capacity `0`.  The bound `bufsize - 1` wraps to
`2 ^ 64 - 1`, so `strncpy` copies the two bytes of the value into the buffer and
pads with zero bytes: the memory at `sp`, which held three other bytes, starts
with "x", "y" afterwards, and the bytes stored extend over `2 ^ 64 - 1`
positions, although the capacity is `0`.  A copy of that extent leaves the
address space: the call does not return, and the element is still in the
queue. -/
theorem q_remove_head_zero_capacity :
    ∃ out, (q_remove_head xy_queue (some [85, 85, 85]) 0).2.1 = some out ∧
      (q_remove_head xy_queue (some [85, 85, 85]) 0).2.2 = none ∧
      (q_remove_head xy_queue (some [85, 85, 85]) 0).1 = xy_queue ∧
      out.take 2 = [120, 121] ∧ out.take 2 ≠ [85, 85, 85].take 2 ∧
      out.length = 2 ^ 64 - 1 ∧ ¬ out.length ≤ 0 := by
  have hv : (xy_queue.mem 1).value = [120, 121, 0] := by decide
  have hrun : (q_remove_head xy_queue (some [85, 85, 85]) 0).2.1 =
      some (strncpy [85, 85, 85] [120, 121, 0] (2 ^ 64 - 1)) := by
    have h0 : (q_remove_head xy_queue (some [85, 85, 85]) 0).2.1 =
        some (strncpy (memset [85, 85, 85] 0 0) (xy_queue.mem 1).value
          ((0 + 2 ^ SIZE_WIDTH - 1) % 2 ^ SIZE_WIDTH)) := rfl
    rw [h0, hv]
    have hm : memset [85, 85, 85] 0 0 = [85, 85, 85] := rfl
    have hn : (0 + 2 ^ SIZE_WIDTH - 1) % 2 ^ SIZE_WIDTH = 2 ^ 64 - 1 := by
      simp only [SIZE_WIDTH]
      omega
    rw [hm, hn]
  have hs : strlen [120, 121, 0] = 2 := by decide
  have htake : (strncpy [85, 85, 85] [120, 121, 0] (2 ^ 64 - 1)).take 2 = [120, 121] := by
    rw [strncpy_take _ _ _ 2 (by rw [hs]) (by omega)]
    rfl
  have hlen : (strncpy [85, 85, 85] [120, 121, 0] (2 ^ 64 - 1)).length = 2 ^ 64 - 1 := by
    rw [strncpy_length]
    simp only [List.length_cons, List.length_nil]
    omega
  refine ⟨_, hrun, rfl, rfl, htake, ?_, hlen, ?_⟩
  · rw [htake]
    decide
  · rw [hlen]
    omega

end Lab0
